import Mathlib

/-!
Verification of the domain-squatting detector
(`scripts/modules/domain-squatting-detector.js`) and of the scan-scheduler
invariant described in the design document.

Domains are JavaScript strings iterated code point by code point, so they are
embedded as `List Char`.  JavaScript numeric confidences are embedded as exact
rationals (`ℚ`); every confidence value occurring in the module is a small
decimal fraction, so no floating-point rounding is involved in the properties
proved here.
-/

abbrev Str := List Char

/-- Source `technique` tags occurring in the detector's result objects. -/
inductive Technique
  | levenshtein
  | homoglyph
  | typosquat
  | combosquat
deriving DecidableEq, Repr

/-- Source `pattern` tags occurring in the detector's result objects. -/
inductive PatternKind
  | character_swap
  | character_omission
  | character_duplication
  | adjacent_key_substitution
  | common_combo
  | generic_combo
  | separator_combo
deriving DecidableEq, Repr

/-- One technique result object as produced by the four `detect*` methods.
Fields that a given technique does not set are `none`.  The inert
human-readable `description` strings are not modelled. -/
structure TechniqueResult where
  technique : Technique
  confidence : ℚ
  distance : Option Nat := none
  original : Option Str := none
  normalized : Option Str := none
  pattern : Option PatternKind := none
  position : Option Nat := none
  originalChar : Option Char := none
  substitutedChar : Option Char := none
  comboPre : Option Str := none
  comboSuf : Option Str := none
  separator : Option Str := none
deriving DecidableEq, Repr

/-- Severity levels returned by `calculateSeverity`. -/
inductive Severity
  | low
  | medium
  | high
  | critical
deriving DecidableEq, Repr

/-- The aggregated detection result returned by `checkDomain`. -/
structure Verdict where
  detected : Bool
  testDomain : Str
  protectedDomain : Str
  techniques : List TechniqueResult
  severity : Severity
  confidence : ℚ
deriving DecidableEq, Repr

/-- The `algorithms` flag object of `DomainSquattingDetector`. -/
structure Algorithms where
  levenshtein : Bool
  homoglyph : Bool
  typosquat : Bool
  combosquat : Bool
deriving DecidableEq, Repr

/-- The mutable configuration state of a `DomainSquattingDetector` instance
(the homoglyph tables are fixed and are modelled as top-level constants). -/
structure Detector where
  protectedDomains : List Str
  enabled : Bool
  deviationThreshold : Nat
  algorithms : Algorithms
deriving Repr

/-- Constructor state of `DomainSquattingDetector`. -/
def defaultDetector : Detector :=
  { protectedDomains := []
    enabled := true
    deviationThreshold := 2
    algorithms := { levenshtein := true, homoglyph := true, typosquat := true, combosquat := true } }

/-! ## Levenshtein distance (`levenshteinDistance`)

The source fills a `(str2.length+1) × (str1.length+1)` dynamic-programming
matrix row by row; `matrix[0][j] = j`, `matrix[i][0] = i`, and
`matrix[i][j]` is `matrix[i-1][j-1]` on equal characters and otherwise
`1 + min` of the substitution, insertion and deletion predecessors.  The
embedding computes the same rows: `levRow` produces the entries `j = 1..n`
of one row from the tail of the previous row (`diag :: up :: rest`) and the
entry to the left, and `levRows` folds over `str2`. -/

def levRow (c : Char) : Str → List Nat → Nat → List Nat
  | x :: xs, diag :: up :: rest, left =>
    let cur := if c = x then diag else min (min (diag + 1) (left + 1)) (up + 1)
    cur :: levRow c xs (up :: rest) cur
  | _, _, _ => []

def levRows (str1 : Str) : Str → List Nat → Nat → List Nat
  | [], prev, _ => prev
  | c :: cs, prev, i => levRows str1 cs (i :: levRow c str1 prev i) (i + 1)

/-- Source `levenshteinDistance(str1, str2)` of the source: the bottom-right entry of
the dynamic-programming matrix. -/
def levenshteinDistance (str1 str2 : Str) : Nat :=
  (levRows str1 str2 (List.range (str1.length + 1)) 1).getLastD 0

/-- Source `detectLevenshtein(testDomain, protectedDomain)`;  `thr` is the
detector's `deviationThreshold`. -/
def detectLevenshtein (thr : Nat) (testDomain protectedDomain : Str) : Option TechniqueResult :=
  let distance := levenshteinDistance testDomain protectedDomain
  if 0 < distance ∧ distance ≤ thr then
    some { technique := Technique.levenshtein
           confidence := 1 - (distance : ℚ) / (thr : ℚ)
           distance := some distance }
  else
    none

def microsoftChars : Str := ['m', 'i', 'c', 'r', 'o', 's', 'o', 'f', 't']

def micrsoftChars : Str := ['m', 'i', 'c', 'r', 's', 'o', 'f', 't']

/-- Unfolding equation for `detectLevenshtein`. -/
theorem detectLevenshtein_eq (thr : Nat) (t p : Str) :
    detectLevenshtein thr t p =
      if 0 < levenshteinDistance t p ∧ levenshteinDistance t p ≤ thr then
        some { technique := Technique.levenshtein
               confidence := 1 - (levenshteinDistance t p : ℚ) / (thr : ℚ)
               distance := some (levenshteinDistance t p) }
      else none := rfl

/-- Claim C2: for every pair of base labels with Levenshtein distance `d` and
every `deviationThreshold`, `detectLevenshtein` fires iff `0 < d ≤ threshold`;
the reported result carries technique `levenshtein`, the distance, and the
linearly decreasing confidence `1 - d / threshold`, which is strictly
monotonically decreasing in `d` across firing pairs at a fixed threshold; and
on test base "micrsoft" against protected base "microsoft" at the default
threshold 2 it fires with technique `levenshtein` and confidence 0.5. -/
theorem c2_detectLevenshtein_spec :
    (∀ (thr : Nat) (t p : Str),
      ((detectLevenshtein thr t p).isSome ↔
        0 < levenshteinDistance t p ∧ levenshteinDistance t p ≤ thr) ∧
      (∀ r, detectLevenshtein thr t p = some r →
        r.technique = Technique.levenshtein ∧
        r.distance = some (levenshteinDistance t p) ∧
        r.confidence = 1 - (levenshteinDistance t p : ℚ) / (thr : ℚ)) ∧
      (∀ (t2 p2 : Str) (r r2 : TechniqueResult),
        detectLevenshtein thr t p = some r →
        detectLevenshtein thr t2 p2 = some r2 →
        levenshteinDistance t p < levenshteinDistance t2 p2 →
        r2.confidence < r.confidence)) ∧
    detectLevenshtein 2 micrsoftChars microsoftChars =
      some { technique := Technique.levenshtein, confidence := 1/2, distance := some 1 } := by
  constructor
  · intro thr t p
    refine ⟨?_, ?_, ?_⟩
    · rw [detectLevenshtein_eq]
      split
      case isTrue h => simpa using h
      case isFalse h =>
        simp only [Option.isSome_none, Bool.false_eq_true, false_iff]
        exact h
    · intro r hr
      rw [detectLevenshtein_eq] at hr
      split at hr
      · cases hr
        exact ⟨rfl, rfl, rfl⟩
      · exact absurd hr (by simp)
    · intro t2 p2 r r2 hr hr2 hlt
      rw [detectLevenshtein_eq] at hr
      rw [detectLevenshtein_eq] at hr2
      split at hr
      case isTrue h1 =>
        split at hr2
        case isTrue h2 =>
          cases hr
          cases hr2
          have hthr : (0 : ℚ) < (thr : ℚ) := by
            exact_mod_cast Nat.lt_of_lt_of_le h1.1 h1.2
          have hdiv : (levenshteinDistance t p : ℚ) / (thr : ℚ) <
              (levenshteinDistance t2 p2 : ℚ) / (thr : ℚ) := by
            apply div_lt_div_of_pos_right _ hthr
            exact_mod_cast hlt
          simpa using sub_lt_sub_left hdiv 1
        case isFalse => exact absurd hr2 (by simp)
      case isFalse => exact absurd hr (by simp)
  · rw [detectLevenshtein_eq]
    have hd : levenshteinDistance micrsoftChars microsoftChars = 1 := by decide
    rw [hd]
    norm_num

/-- Witness for C2: the iff direction applied at the concrete example pair,
and the monotonicity hypothesis discharged on two concrete firing pairs. -/
theorem c2_detectLevenshtein_witness :
    (detectLevenshtein 2 micrsoftChars microsoftChars).isSome ∧
    ∀ r r2, detectLevenshtein 2 micrsoftChars microsoftChars = some r →
      detectLevenshtein 2 ['a', 'b'] ['b', 'a'] = some r2 →
      r2.confidence < r.confidence := by
  refine ⟨?_, ?_⟩
  · exact (c2_detectLevenshtein_spec.1 2 micrsoftChars microsoftChars).1.mpr (by decide)
  · intro r r2 hr hr2
    exact (c2_detectLevenshtein_spec.1 2 micrsoftChars microsoftChars).2.2
      ['a', 'b'] ['b', 'a'] r r2 hr hr2 (by decide)

/-! ## Homoglyph table and normalization -/

/-- The constructor's `this.homoglyphs` table, in JavaScript object insertion
order. -/
def homoglyphs : List (Char × List Char) :=
  [ ('a', ['à', 'á', 'â', 'ã', 'ä', 'å', 'ā', 'ă', 'ą', 'α', 'а']),
    ('b', ['ḃ', 'ḅ', 'ḇ', 'ь', 'в']),
    ('c', ['ć', 'ĉ', 'ċ', 'ç', 'č', 'ϲ', 'с']),
    ('d', ['ď', 'ḋ', 'ḍ', 'ḏ', 'ḑ', 'ḓ', 'ԁ', 'ժ']),
    ('e', ['è', 'é', 'ê', 'ë', 'ē', 'ĕ', 'ė', 'ę', 'ě', 'е', 'ε']),
    ('g', ['ĝ', 'ğ', 'ġ', 'ģ', 'ց', 'ǥ']),
    ('h', ['ĥ', 'ḣ', 'ḥ', 'ḧ', 'ḩ', 'ḫ', 'һ', 'հ']),
    ('i', ['ì', 'í', 'î', 'ï', 'ĩ', 'ī', 'ĭ', 'į', 'ı', 'і', 'ι']),
    ('j', ['ĵ', 'ј']),
    ('k', ['ķ', 'ḱ', 'ḳ', 'ḵ', 'κ', 'к']),
    ('l', ['ĺ', 'ļ', 'ľ', 'ḷ', 'ḹ', 'ḻ', 'ḽ', 'ӏ', 'ℓ']),
    ('m', ['ḿ', 'ṁ', 'ṃ', 'м', 'ṁ']),
    ('n', ['ñ', 'ń', 'ņ', 'ň', 'ṅ', 'ṇ', 'ṉ', 'ṋ', 'п']),
    ('o', ['ò', 'ó', 'ô', 'õ', 'ö', 'ø', 'ō', 'ŏ', 'ő', 'ο', 'о', 'օ']),
    ('p', ['ṕ', 'ṗ', 'р', 'ρ']),
    ('q', ['ԛ']),
    ('r', ['ŕ', 'ŗ', 'ř', 'ṙ', 'ṛ', 'ṝ', 'ṟ', 'г']),
    ('s', ['ś', 'ŝ', 'ş', 'š', 'ṡ', 'ṣ', 'ṥ', 'ṧ', 'ṩ', 'ѕ']),
    ('t', ['ţ', 'ť', 'ṫ', 'ṭ', 'ṯ', 'ṱ', 'т', 'τ']),
    ('u', ['ù', 'ú', 'û', 'ü', 'ũ', 'ū', 'ŭ', 'ů', 'ű', 'ų', 'υ', 'и']),
    ('v', ['ṽ', 'ṿ', 'ν', 'ѵ']),
    ('w', ['ŵ', 'ẁ', 'ẃ', 'ẅ', 'ẇ', 'ẉ', 'ẘ', 'ԝ']),
    ('x', ['ẋ', 'ẍ', 'х', 'χ']),
    ('y', ['ý', 'ÿ', 'ŷ', 'ẏ', 'ẙ', 'ỳ', 'ỵ', 'у', 'ү']),
    ('z', ['ź', 'ż', 'ž', 'ẑ', 'ẓ', 'ẕ', 'ᴢ']),
    ('0', ['о', 'ο', 'о', '᧐']),
    ('1', ['l', 'і', 'Ӏ', 'ǀ']),
    ('3', ['з', 'ʒ', 'ȝ']),
    ('5', ['ƽ']),
    ('6', ['б']),
    ('8', ['ց']),
    ('9', ['ԛ', 'ց'])
  ]

/-- First-match association lookup (used to read the reverse-map object). -/
def lookupChar : List (Char × Char) → Char → Option Char
  | [], _ => none
  | p :: ps, c => if p.1 = c then some p.2 else lookupChar ps c

/-- The `(variant, base)` pairs written by `buildReverseHomoglyphMap`, in
write order.  A JavaScript object keeps the LAST write for a repeated key, so
reads of the finished object are first-match lookups on the reversed list. -/
def homoglyphReversePairs : List (Char × Char) :=
  (homoglyphs.flatMap fun bv => bv.2.map fun v => (v, bv.1)).reverse

/-- Reading `this.homoglyphReverse[char]` on the object built by
`buildReverseHomoglyphMap`. -/
def homoglyphReverse (c : Char) : Option Char :=
  lookupChar homoglyphReversePairs c

/-- Source `normalizeHomoglyphs(domain)`: each character is replaced by its reverse-map
image when one exists (`this.homoglyphReverse[char] || char`). -/
def normalizeHomoglyphs (domain : Str) : Str :=
  domain.map fun c => (homoglyphReverse c).getD c

/-- Source `detectHomoglyph(testDomain, protectedDomain)`; `thr` is the detector's
`deviationThreshold`. -/
def detectHomoglyph (thr : Nat) (testDomain protectedDomain : Str) : Option TechniqueResult :=
  let normalized := normalizeHomoglyphs testDomain
  if normalized ≠ testDomain ∧ normalized = protectedDomain then
    some { technique := Technique.homoglyph
           confidence := 95/100
           original := some testDomain
           normalized := some normalized }
  else
    let distance := levenshteinDistance normalized protectedDomain
    if normalized ≠ testDomain ∧ 0 < distance ∧ distance ≤ thr then
      some { technique := Technique.homoglyph
             confidence := 85/100 - (distance : ℚ) * (1/10)
             original := some testDomain
             normalized := some normalized
             distance := some distance }
    else
      none

def paypalChars : Str := ['p', 'a', 'y', 'p', 'a', 'l']

set_option maxRecDepth 40000 in
/-- Claim C3 counterexample: "paypal" is an already-normalized, pure-Latin
(lowercase a–z) domain string, yet `normalizeHomoglyphs` does not return it
unchanged: the table lists the Latin letter 'l' as a confusable variant of the
digit '1', so the reverse map rewrites every 'l' and "paypal" becomes
"paypa1". -/
theorem c3_normalizeHomoglyphs_counterexample :
    (∀ c ∈ paypalChars, c.isLower = true) ∧
    normalizeHomoglyphs paypalChars ≠ paypalChars ∧
    normalizeHomoglyphs paypalChars = ['p', 'a', 'y', 'p', 'a', '1'] := by
  refine ⟨by decide, by decide, by decide⟩

/-- The 25 lowercase Latin letters other than 'l'. -/
def lowerLatinNoL : List Char :=
  ['a', 'b', 'c', 'd', 'e', 'f', 'g', 'h', 'i', 'j', 'k', 'm',
   'n', 'o', 'p', 'q', 'r', 's', 't', 'u', 'v', 'w', 'x', 'y', 'z']

set_option maxRecDepth 40000 in
/-- Claim C3 (amended): `normalizeHomoglyphs` returns every pure-Latin
(lowercase a–z) domain string unchanged, provided the string does not contain
the letter 'l' — the one Latin letter the table itself lists as a homoglyph
variant (of the digit '1'). -/
theorem c3_normalizeHomoglyphs_fixed_on_latin_noL :
    ∀ d : Str, (∀ c ∈ d, c ∈ lowerLatinNoL) → normalizeHomoglyphs d = d := by
  have hnone : ∀ c ∈ lowerLatinNoL, homoglyphReverse c = none := by decide
  intro d hd
  induction d with
  | nil => rfl
  | cons c cs ih =>
    have hc := hnone c (hd c (List.mem_cons_self c cs))
    have hcs := ih fun x hx => hd x (List.mem_cons_of_mem c hx)
    simp only [normalizeHomoglyphs, List.map_cons, hc, Option.getD_none]
    simp only [normalizeHomoglyphs] at hcs
    rw [hcs]

set_option maxRecDepth 40000 in
/-- Witness for the amended C3: the pure-Latin, 'l'-free domain "microsoft" is
returned unchanged. -/
theorem c3_normalizeHomoglyphs_witness :
    normalizeHomoglyphs microsoftChars = microsoftChars :=
  c3_normalizeHomoglyphs_fixed_on_latin_noL microsoftChars (by decide)

/-! ## Typosquat patterns (`detectTyposquat`)

Each of the four pattern families is a JavaScript `for` loop that returns the
first position whose candidate string equals the test domain.  `forRange f i n`
renders `for (let j = i; j < i + n; j++) { const r = f(j); if (r) return r; }`,
and `firstSome` renders the inner `for...of` loop over the adjacent-key list. -/

def forRange {α : Type} (f : Nat → Option α) : Nat → Nat → Option α
  | _, 0 => none
  | i, n + 1 =>
    match f i with
    | some r => some r
    | none => forRange f (i + 1) n

def firstSome {α β : Type} (f : α → Option β) : List α → Option β
  | [] => none
  | a :: as =>
    match f a with
    | some b => some b
    | none => firstSome f as

/-- JS `s.charAt(i)`, as a zero-or-one-character string. -/
def charAt (s : Str) (i : Nat) : Str := (s.drop i).take 1

/-- Source `substring(0,i) + charAt(i+1) + charAt(i) + substring(i+2)`. -/
def swapAt (p : Str) (i : Nat) : Str :=
  p.take i ++ charAt p (i + 1) ++ charAt p i ++ p.drop (i + 2)

/-- Source `substring(0,i) + substring(i+1)`. -/
def omitAt (p : Str) (i : Nat) : Str := p.take i ++ p.drop (i + 1)

/-- Source `substring(0,i+1) + charAt(i) + substring(i+1)`. -/
def dupAt (p : Str) (i : Nat) : Str := p.take (i + 1) ++ charAt p i ++ p.drop (i + 1)

/-- Source `substring(0,i) + adjacentKey + substring(i+1)`. -/
def subAt (p : Str) (i : Nat) (k : Char) : Str := p.take i ++ [k] ++ p.drop (i + 1)

/-- The `keyboardAdjacent` table of `detectTyposquat` (missing keys give `[]`,
as `keyboardAdjacent[char] || []` does). -/
def keyboardAdjacent (c : Char) : List Char :=
  if c = 'q' then ['w', 'a']
  else if c = 'w' then ['q', 'e', 's', 'a']
  else if c = 'e' then ['w', 'r', 'd', 's']
  else if c = 'r' then ['e', 't', 'f', 'd']
  else if c = 't' then ['r', 'y', 'g', 'f']
  else if c = 'y' then ['t', 'u', 'h', 'g']
  else if c = 'u' then ['y', 'i', 'j', 'h']
  else if c = 'i' then ['u', 'o', 'k', 'j']
  else if c = 'o' then ['i', 'p', 'l', 'k']
  else if c = 'p' then ['o', 'l']
  else if c = 'a' then ['q', 'w', 's', 'z']
  else if c = 's' then ['a', 'w', 'd', 'x', 'z']
  else if c = 'd' then ['s', 'e', 'f', 'c', 'x']
  else if c = 'f' then ['d', 'r', 'g', 'v', 'c']
  else if c = 'g' then ['f', 't', 'h', 'b', 'v']
  else if c = 'h' then ['g', 'y', 'j', 'n', 'b']
  else if c = 'j' then ['h', 'u', 'k', 'm', 'n']
  else if c = 'k' then ['j', 'i', 'l', 'm']
  else if c = 'l' then ['k', 'o', 'p']
  else if c = 'z' then ['a', 's', 'x']
  else if c = 'x' then ['z', 's', 'd', 'c']
  else if c = 'c' then ['x', 'd', 'f', 'v']
  else if c = 'v' then ['c', 'f', 'g', 'b']
  else if c = 'b' then ['v', 'g', 'h', 'n']
  else if c = 'n' then ['b', 'h', 'j', 'm']
  else if c = 'm' then ['n', 'j', 'k']
  else []

/-- Body of the character-swap loop of `detectTyposquat` at position `i`. -/
def swapHit (testDomain protectedDomain : Str) (i : Nat) : Option TechniqueResult :=
  if swapAt protectedDomain i = testDomain then
    some { technique := Technique.typosquat
           confidence := 9/10
           pattern := some PatternKind.character_swap
           position := some i }
  else none

/-- Body of the missing-character loop of `detectTyposquat` at position `i`. -/
def omitHit (testDomain protectedDomain : Str) (i : Nat) : Option TechniqueResult :=
  if omitAt protectedDomain i = testDomain then
    some { technique := Technique.typosquat
           confidence := 85/100
           pattern := some PatternKind.character_omission
           position := some i }
  else none

/-- Body of the duplicate-character loop of `detectTyposquat` at position `i`. -/
def dupHit (testDomain protectedDomain : Str) (i : Nat) : Option TechniqueResult :=
  if dupAt protectedDomain i = testDomain then
    some { technique := Technique.typosquat
           confidence := 85/100
           pattern := some PatternKind.character_duplication
           position := some i }
  else none

/-- Body of the inner `for...of` loop of the adjacent-key check: one candidate
substitution of `k` for the character `c` at position `i`. -/
def adjKeyHit (testDomain protectedDomain : Str) (i : Nat) (c k : Char) : Option TechniqueResult :=
  if subAt protectedDomain i k = testDomain then
    some { technique := Technique.typosquat
           confidence := 8/10
           pattern := some PatternKind.adjacent_key_substitution
           position := some i
           originalChar := some c
           substitutedChar := some k }
  else none

/-- Body of the adjacent-key-substitution loop of `detectTyposquat` at
position `i` (the inner loop runs over the adjacent keys of `charAt(i)`). -/
def adjHit (testDomain protectedDomain : Str) (i : Nat) : Option TechniqueResult :=
  match protectedDomain.get? i with
  | none => none
  | some c => firstSome (adjKeyHit testDomain protectedDomain i c) (keyboardAdjacent c)

/-- Source `detectTyposquat(testDomain, protectedDomain)`: the four loops in source
order, each returning on its first exact match. -/
def detectTyposquat (testDomain protectedDomain : Str) : Option TechniqueResult :=
  match forRange (swapHit testDomain protectedDomain) 0 (protectedDomain.length - 1) with
  | some r => some r
  | none =>
    match forRange (omitHit testDomain protectedDomain) 0 protectedDomain.length with
    | some r => some r
    | none =>
      match forRange (dupHit testDomain protectedDomain) 0 protectedDomain.length with
      | some r => some r
      | none => forRange (adjHit testDomain protectedDomain) 0 protectedDomain.length

/-- A `forRange` run either misses everywhere or returns the value of the
first index whose body fires. -/
theorem forRange_spec {α : Type} (f : Nat → Option α) :
    ∀ (n i : Nat),
      (forRange f i n = none ∧ ∀ j, i ≤ j → j < i + n → f j = none) ∨
      (∃ j, i ≤ j ∧ j < i + n ∧ (∀ m, i ≤ m → m < j → f m = none) ∧
        forRange f i n = f j ∧ (f j).isSome) := by
  intro n
  induction n with
  | zero =>
    intro i
    exact Or.inl ⟨rfl, fun j h1 h2 => absurd h2 (by omega)⟩
  | succ n ih =>
    intro i
    rcases hfi : f i with _ | r
    · rcases ih (i + 1) with ⟨hnone, hall⟩ | ⟨j, hj1, hj2, hmin, heq, hsome⟩
      · refine Or.inl ⟨?_, ?_⟩
        · simp [forRange, hfi, hnone]
        · intro j h1 h2
          rcases Nat.eq_or_lt_of_le h1 with h | h
          · rwa [← h]
          · exact hall j h (by omega)
      · refine Or.inr ⟨j, by omega, by omega, ?_, ?_, hsome⟩
        · intro m h1 h2
          rcases Nat.eq_or_lt_of_le h1 with h | h
          · rwa [← h]
          · exact hmin m h h2
        · simp [forRange, hfi, heq]
    · exact Or.inr ⟨i, le_refl i, by omega, fun m h1 h2 => absurd h2 (by omega),
        by simp [forRange, hfi], by simp [hfi]⟩

/-- A `firstSome` run either misses on every element or returns the value of
the first element whose body fires. -/
theorem firstSome_spec {α β : Type} (f : α → Option β) :
    ∀ l : List α,
      (firstSome f l = none ∧ ∀ a ∈ l, f a = none) ∨
      (∃ a ∈ l, firstSome f l = f a ∧ (f a).isSome) := by
  intro l
  induction l with
  | nil => exact Or.inl ⟨rfl, by simp⟩
  | cons a as ih =>
    rcases hfa : f a with _ | b
    · rcases ih with ⟨hnone, hall⟩ | ⟨x, hx, heq, hsome⟩
      · refine Or.inl ⟨by simp [firstSome, hfa, hnone], ?_⟩
        intro x hx
        rcases List.mem_cons.mp hx with h | h
        · rwa [h]
        · exact hall x h
      · exact Or.inr ⟨x, List.mem_cons_of_mem a hx, by simp [firstSome, hfa, heq], hsome⟩
    · exact Or.inr ⟨a, List.mem_cons_self a as, by simp [firstSome, hfa], by simp [hfa]⟩

/-- A range whose body always misses returns nothing. -/
theorem forRange_eq_none {α : Type} (f : Nat → Option α) (n i : Nat)
    (h : ∀ j, i ≤ j → j < i + n → f j = none) : forRange f i n = none := by
  rcases forRange_spec f n i with ⟨hnone, _⟩ | ⟨j, hj1, hj2, _, _, hsome⟩
  · exact hnone
  · rw [h j hj1 hj2] at hsome
    cases hsome

theorem swapHit_eq_none_iff (t p : Str) (i : Nat) :
    swapHit t p i = none ↔ swapAt p i ≠ t := by
  unfold swapHit
  split <;> simp [*]

theorem omitHit_eq_none_iff (t p : Str) (i : Nat) :
    omitHit t p i = none ↔ omitAt p i ≠ t := by
  unfold omitHit
  split <;> simp [*]

theorem dupHit_eq_none_iff (t p : Str) (i : Nat) :
    dupHit t p i = none ↔ dupAt p i ≠ t := by
  unfold dupHit
  split <;> simp [*]

/-- Every successful `adjHit` reports the adjacent-key pattern at its position
with the fixed confidence 0.8 and names a keyboard-adjacent substitution that
reproduces the test domain. -/
theorem adjHit_fields (t p : Str) (i : Nat) (r : TechniqueResult)
    (h : adjHit t p i = some r) :
    r.technique = Technique.typosquat ∧ r.confidence = 8/10 ∧
    r.pattern = some PatternKind.adjacent_key_substitution ∧ r.position = some i ∧
    ∃ c k, p.get? i = some c ∧ k ∈ keyboardAdjacent c ∧ subAt p i k = t ∧
      r.originalChar = some c ∧ r.substitutedChar = some k := by
  unfold adjHit at h
  rcases hget : p.get? i with _ | c
  · rw [hget] at h
    cases h
  · rw [hget] at h
    simp only [] at h
    rcases firstSome_spec (adjKeyHit t p i c) (keyboardAdjacent c) with
      ⟨hnone, _⟩ | ⟨k, hk, heq, hsome⟩
    · rw [hnone] at h
      cases h
    · rw [heq] at h
      unfold adjKeyHit at h
      by_cases hcond : subAt p i k = t
      · rw [if_pos hcond] at h
        cases h
        exact ⟨rfl, rfl, rfl, rfl, c, k, rfl, hk, hcond, rfl, rfl⟩
      · rw [if_neg hcond] at h
        cases h

/-- Claim C7: `detectTyposquat` tests, in order, adjacent-character
transposition, single-character omission, single-character duplication, and
QWERTY-adjacent-key substitution, each at every position of the protected
label; it fires on the first exact match with the test label, reporting the
position and pattern kind, with fixed confidences 0.9 (transposition),
0.85 (omission), 0.85 (duplication) and 0.8 (keyboard adjacency) — highest for
transposition and lowest for keyboard adjacency; it returns nothing when no
pattern matches. -/
theorem c7_detectTyposquat_spec :
    ∀ t p : Str,
      ((∃ i, i < p.length - 1 ∧ swapAt p i = t) →
        ∃ i, i < p.length - 1 ∧ swapAt p i = t ∧ (∀ j, j < i → swapAt p j ≠ t) ∧
          detectTyposquat t p =
            some { technique := Technique.typosquat
                   confidence := 9/10
                   pattern := some PatternKind.character_swap
                   position := some i }) ∧
      ((∀ i, i < p.length - 1 → swapAt p i ≠ t) →
        (∃ i, i < p.length ∧ omitAt p i = t) →
        ∃ i, i < p.length ∧ omitAt p i = t ∧ (∀ j, j < i → omitAt p j ≠ t) ∧
          detectTyposquat t p =
            some { technique := Technique.typosquat
                   confidence := 85/100
                   pattern := some PatternKind.character_omission
                   position := some i }) ∧
      ((∀ i, i < p.length - 1 → swapAt p i ≠ t) →
        (∀ i, i < p.length → omitAt p i ≠ t) →
        (∃ i, i < p.length ∧ dupAt p i = t) →
        ∃ i, i < p.length ∧ dupAt p i = t ∧ (∀ j, j < i → dupAt p j ≠ t) ∧
          detectTyposquat t p =
            some { technique := Technique.typosquat
                   confidence := 85/100
                   pattern := some PatternKind.character_duplication
                   position := some i }) ∧
      ((∀ i, i < p.length - 1 → swapAt p i ≠ t) →
        (∀ i, i < p.length → omitAt p i ≠ t) →
        (∀ i, i < p.length → dupAt p i ≠ t) →
        (∃ i, i < p.length ∧ (adjHit t p i).isSome) →
        ∃ i r, i < p.length ∧ (∀ j, j < i → adjHit t p j = none) ∧
          adjHit t p i = some r ∧ detectTyposquat t p = some r ∧
          r.technique = Technique.typosquat ∧ r.confidence = 8/10 ∧
          r.pattern = some PatternKind.adjacent_key_substitution ∧
          r.position = some i ∧
          ∃ c k, p.get? i = some c ∧ k ∈ keyboardAdjacent c ∧ subAt p i k = t) ∧
      ((∀ i, i < p.length - 1 → swapAt p i ≠ t) →
        (∀ i, i < p.length → omitAt p i ≠ t) →
        (∀ i, i < p.length → dupAt p i ≠ t) →
        (∀ i, i < p.length → adjHit t p i = none) →
        detectTyposquat t p = none) := by
  intro t p
  refine ⟨?_, ?_, ?_, ?_, ?_⟩
  · intro hex
    rcases forRange_spec (swapHit t p) (p.length - 1) 0 with
      ⟨hnone, hall⟩ | ⟨j, hj1, hj2, hmin, heq, hsome⟩
    · obtain ⟨i0, hi0, hsw⟩ := hex
      have h0 := hall i0 (Nat.zero_le _) (by omega)
      rw [swapHit_eq_none_iff] at h0
      exact absurd hsw h0
    · have hswj : swapAt p j = t := by
        by_contra hne
        rw [(swapHit_eq_none_iff t p j).mpr hne] at hsome
        cases hsome
      refine ⟨j, by omega, hswj, ?_, ?_⟩
      · intro m hm
        have h1 := hmin m (Nat.zero_le _) hm
        rwa [swapHit_eq_none_iff] at h1
      · have h2 : swapHit t p j = some
            { technique := Technique.typosquat
              confidence := 9/10
              pattern := some PatternKind.character_swap
              position := some j } := by
          simp [swapHit, hswj]
        rw [h2] at heq
        simp [detectTyposquat, heq]
  · intro hnosw hex
    have hswnone : forRange (swapHit t p) 0 (p.length - 1) = none :=
      forRange_eq_none _ _ _ fun j _ h2 =>
        (swapHit_eq_none_iff t p j).mpr (hnosw j (by omega))
    rcases forRange_spec (omitHit t p) p.length 0 with
      ⟨hnone, hall⟩ | ⟨j, hj1, hj2, hmin, heq, hsome⟩
    · obtain ⟨i0, hi0, hom⟩ := hex
      have h0 := hall i0 (Nat.zero_le _) (by omega)
      rw [omitHit_eq_none_iff] at h0
      exact absurd hom h0
    · have homj : omitAt p j = t := by
        by_contra hne
        rw [(omitHit_eq_none_iff t p j).mpr hne] at hsome
        cases hsome
      refine ⟨j, by omega, homj, ?_, ?_⟩
      · intro m hm
        have h1 := hmin m (Nat.zero_le _) hm
        rwa [omitHit_eq_none_iff] at h1
      · have h2 : omitHit t p j = some
            { technique := Technique.typosquat
              confidence := 85/100
              pattern := some PatternKind.character_omission
              position := some j } := by
          simp [omitHit, homj]
        rw [h2] at heq
        simp [detectTyposquat, hswnone, heq]
  · intro hnosw hnoom hex
    have hswnone : forRange (swapHit t p) 0 (p.length - 1) = none :=
      forRange_eq_none _ _ _ fun j _ h2 =>
        (swapHit_eq_none_iff t p j).mpr (hnosw j (by omega))
    have homnone : forRange (omitHit t p) 0 p.length = none :=
      forRange_eq_none _ _ _ fun j _ h2 =>
        (omitHit_eq_none_iff t p j).mpr (hnoom j (by omega))
    rcases forRange_spec (dupHit t p) p.length 0 with
      ⟨hnone, hall⟩ | ⟨j, hj1, hj2, hmin, heq, hsome⟩
    · obtain ⟨i0, hi0, hdu⟩ := hex
      have h0 := hall i0 (Nat.zero_le _) (by omega)
      rw [dupHit_eq_none_iff] at h0
      exact absurd hdu h0
    · have hduj : dupAt p j = t := by
        by_contra hne
        rw [(dupHit_eq_none_iff t p j).mpr hne] at hsome
        cases hsome
      refine ⟨j, by omega, hduj, ?_, ?_⟩
      · intro m hm
        have h1 := hmin m (Nat.zero_le _) hm
        rwa [dupHit_eq_none_iff] at h1
      · have h2 : dupHit t p j = some
            { technique := Technique.typosquat
              confidence := 85/100
              pattern := some PatternKind.character_duplication
              position := some j } := by
          simp [dupHit, hduj]
        rw [h2] at heq
        simp [detectTyposquat, hswnone, homnone, heq]
  · intro hnosw hnoom hnodu hex
    have hswnone : forRange (swapHit t p) 0 (p.length - 1) = none :=
      forRange_eq_none _ _ _ fun j _ h2 =>
        (swapHit_eq_none_iff t p j).mpr (hnosw j (by omega))
    have homnone : forRange (omitHit t p) 0 p.length = none :=
      forRange_eq_none _ _ _ fun j _ h2 =>
        (omitHit_eq_none_iff t p j).mpr (hnoom j (by omega))
    have hdunone : forRange (dupHit t p) 0 p.length = none :=
      forRange_eq_none _ _ _ fun j _ h2 =>
        (dupHit_eq_none_iff t p j).mpr (hnodu j (by omega))
    rcases forRange_spec (adjHit t p) p.length 0 with
      ⟨hnone, hall⟩ | ⟨j, hj1, hj2, hmin, heq, hsome⟩
    · obtain ⟨i0, hi0, had⟩ := hex
      rw [hall i0 (Nat.zero_le _) (by omega)] at had
      cases had
    · rcases hadj : adjHit t p j with _ | r
      · rw [hadj] at hsome
        cases hsome
      · rw [hadj] at heq
        obtain ⟨hte, hco, hpa, hpo, c, k, hget, hkmem, hsub, _, _⟩ :=
          adjHit_fields t p j r hadj
        refine ⟨j, r, by omega, fun m hm => hmin m (Nat.zero_le _) hm, hadj, ?_,
          hte, hco, hpa, hpo, c, k, hget, hkmem, hsub⟩
        simp [detectTyposquat, hswnone, homnone, hdunone, heq]
  · intro hnosw hnoom hnodu hnoad
    have hswnone : forRange (swapHit t p) 0 (p.length - 1) = none :=
      forRange_eq_none _ _ _ fun j _ h2 =>
        (swapHit_eq_none_iff t p j).mpr (hnosw j (by omega))
    have homnone : forRange (omitHit t p) 0 p.length = none :=
      forRange_eq_none _ _ _ fun j _ h2 =>
        (omitHit_eq_none_iff t p j).mpr (hnoom j (by omega))
    have hdunone : forRange (dupHit t p) 0 p.length = none :=
      forRange_eq_none _ _ _ fun j _ h2 =>
        (dupHit_eq_none_iff t p j).mpr (hnodu j (by omega))
    have hadnone : forRange (adjHit t p) 0 p.length = none :=
      forRange_eq_none _ _ _ fun j _ h2 => hnoad j (by omega)
    simp [detectTyposquat, hswnone, homnone, hdunone, hadnone]

/-- Witness for C7: "imcrosoft" is "microsoft" with its first two characters
transposed, and the transposition branch fires at position 0. -/
theorem c7_detectTyposquat_witness :
    ∃ i, i < microsoftChars.length - 1 ∧
      swapAt microsoftChars i = ['i', 'm', 'c', 'r', 'o', 's', 'o', 'f', 't'] ∧
      (∀ j, j < i → swapAt microsoftChars j ≠ ['i', 'm', 'c', 'r', 'o', 's', 'o', 'f', 't']) ∧
      detectTyposquat ['i', 'm', 'c', 'r', 'o', 's', 'o', 'f', 't'] microsoftChars =
        some { technique := Technique.typosquat
               confidence := 9/10
               pattern := some PatternKind.character_swap
               position := some 0 } := by
  have h := (c7_detectTyposquat_spec ['i', 'm', 'c', 'r', 'o', 's', 'o', 'f', 't']
    microsoftChars).1 ⟨0, by decide, by decide⟩
  obtain ⟨i, hi, hsw, hmin, heq⟩ := h
  have hi0 : i = 0 := by
    by_contra hne
    exact hmin 0 (by omega) (by decide)
  subst hi0
  exact ⟨0, hi, hsw, hmin, heq⟩

/-! ## Combosquat patterns (`detectCombosquat`) -/

/-- JS `t.indexOf(p)`: the first index at which `p` occurs in `t`, if any. -/
def indexOfSub (p : Str) : Str → Option Nat
  | [] => if p.isPrefixOf [] then some 0 else none
  | c :: rest =>
    if p.isPrefixOf (c :: rest) then some 0
    else (indexOfSub p rest).map (· + 1)

/-- JS `t.includes(p)`. -/
def includesSub (t p : Str) : Bool := (indexOfSub p t).isSome

/-- The `commonCombos` vocabulary of `detectCombosquat`: "secure", "login",
"account", "verify", "support", "help", "my", "auth", "sso", "signin", "app",
"portal", "online", "web", "mobile", "service", "official", "verified",
"safe". -/
def commonCombos : List Str :=
  [ ['s', 'e', 'c', 'u', 'r', 'e'],
    ['l', 'o', 'g', 'i', 'n'],
    ['a', 'c', 'c', 'o', 'u', 'n', 't'],
    ['v', 'e', 'r', 'i', 'f', 'y'],
    ['s', 'u', 'p', 'p', 'o', 'r', 't'],
    ['h', 'e', 'l', 'p'],
    ['m', 'y'],
    ['a', 'u', 't', 'h'],
    ['s', 's', 'o'],
    ['s', 'i', 'g', 'n', 'i', 'n'],
    ['a', 'p', 'p'],
    ['p', 'o', 'r', 't', 'a', 'l'],
    ['o', 'n', 'l', 'i', 'n', 'e'],
    ['w', 'e', 'b'],
    ['m', 'o', 'b', 'i', 'l', 'e'],
    ['s', 'e', 'r', 'v', 'i', 'c', 'e'],
    ['o', 'f', 'f', 'i', 'c', 'i', 'a', 'l'],
    ['v', 'e', 'r', 'i', 'f', 'i', 'e', 'd'],
    ['s', 'a', 'f', 'e'] ]

/-- Source `commonCombos.some(combo => prefix.includes(combo) || suffix.includes(combo))`. -/
def hasCommonCombo (comboPre comboSuf : Str) : Bool :=
  commonCombos.any fun combo => includesSub comboPre combo || includesSub comboSuf combo

/-- The separator loop at the end of `detectCombosquat`, over `['-', '_', '']`. -/
def sepLoop (testDomain protectedDomain : Str) : Option TechniqueResult :=
  firstSome
    (fun sep =>
      if (protectedDomain ++ sep).isPrefixOf testDomain ∨
          (sep ++ protectedDomain).isSuffixOf testDomain then
        some { technique := Technique.combosquat
               confidence := 75/100
               pattern := some PatternKind.separator_combo
               separator := some sep }
      else none)
    [['-'], ['_'], []]

/-- Source `detectCombosquat(testDomain, protectedDomain)`. -/
def detectCombosquat (testDomain protectedDomain : Str) : Option TechniqueResult :=
  if includesSub testDomain protectedDomain ∧ testDomain ≠ protectedDomain then
    let idx := (indexOfSub protectedDomain testDomain).getD 0
    let pre := testDomain.take idx
    let suf := testDomain.drop (idx + protectedDomain.length)
    if hasCommonCombo pre suf then
      some { technique := Technique.combosquat
             confidence := 9/10
             pattern := some PatternKind.common_combo
             comboPre := some pre
             comboSuf := some suf }
    else if pre ≠ [] ∨ suf ≠ [] then
      some { technique := Technique.combosquat
             confidence := 7/10
             pattern := some PatternKind.generic_combo
             comboPre := some pre
             comboSuf := some suf }
    else sepLoop testDomain protectedDomain
  else sepLoop testDomain protectedDomain

/-- Source `indexOfSub` finds an occurrence precisely when `p` is an infix of `t`. -/
theorem indexOfSub_isSome_iff (p : Str) :
    ∀ t : Str, (indexOfSub p t).isSome ↔ p <:+: t := by
  intro t
  induction t with
  | nil =>
    by_cases hpre : p.isPrefixOf ([] : Str)
    · simp only [indexOfSub, if_pos hpre, Option.isSome_some, true_iff]
      exact (List.isPrefixOf_iff_prefix.mp hpre).isInfix
    · simp only [indexOfSub, if_neg hpre, Option.isSome_none]
      rw [ List.isPrefixOf_iff_prefix] at hpre
      constructor
      · intro h
        cases h
      · intro h
        rw [List.infix_nil] at h
        subst h
        exact absurd List.nil_prefix hpre
  | cons c cs ih =>
    by_cases hpre : p.isPrefixOf (c :: cs)
    · simp only [indexOfSub, if_pos hpre, Option.isSome_some, true_iff]
      exact (List.isPrefixOf_iff_prefix.mp hpre).isInfix
    · simp only [indexOfSub, if_neg hpre]
      have hmap : (Option.map (fun x => x + 1) (indexOfSub p cs)).isSome =
          (indexOfSub p cs).isSome := by
        cases indexOfSub p cs <;> rfl
      rw [hmap, ih, List.infix_cons_iff]
      rw [ List.isPrefixOf_iff_prefix] at hpre
      constructor
      · exact Or.inr
      · rintro (h | h)
        · exact absurd h hpre
        · exact h

/-- A found occurrence decomposes the searched string:
`t = t.take i ++ p ++ t.drop (i + p.length)`. -/
theorem indexOfSub_decomp (p : Str) :
    ∀ (t : Str) (i : Nat), indexOfSub p t = some i →
      t.take i ++ p ++ t.drop (i + p.length) = t := by
  intro t
  induction t with
  | nil =>
    intro i h
    by_cases hpre : p.isPrefixOf ([] : Str)
    · rw [indexOfSub, if_pos hpre] at h
      cases h
      obtain ⟨s, hs⟩ := List.isPrefixOf_iff_prefix.mp hpre
      simp at hs
      simp [hs]
    · rw [indexOfSub, if_neg hpre] at h
      cases h
  | cons c cs ih =>
    intro i h
    by_cases hpre : p.isPrefixOf (c :: cs)
    · rw [indexOfSub, if_pos hpre] at h
      cases h
      obtain ⟨s, hs⟩ := List.isPrefixOf_iff_prefix.mp hpre
      rw [← hs]
      simp [List.drop_left]
    · rw [indexOfSub, if_neg hpre] at h
      rcases hrec : indexOfSub p cs with _ | j
      · rw [hrec] at h
        cases h
      · rw [hrec] at h
        simp at h
        subst h
        have hsucc : j + 1 + p.length = (j + p.length) + 1 := by omega
        rw [hsucc]
        simp only [List.take_succ_cons, List.drop_succ_cons, List.cons_append]
        rw [ih j hrec]

/-- Unfolding equation for `detectCombosquat` (the `let` bindings expanded). -/
theorem detectCombosquat_eq (t p : Str) :
    detectCombosquat t p =
      if includesSub t p ∧ t ≠ p then
        if hasCommonCombo (t.take ((indexOfSub p t).getD 0))
            (t.drop ((indexOfSub p t).getD 0 + p.length)) then
          some { technique := Technique.combosquat
                 confidence := 9/10
                 pattern := some PatternKind.common_combo
                 comboPre := some (t.take ((indexOfSub p t).getD 0))
                 comboSuf := some (t.drop ((indexOfSub p t).getD 0 + p.length)) }
        else if t.take ((indexOfSub p t).getD 0) ≠ [] ∨
            t.drop ((indexOfSub p t).getD 0 + p.length) ≠ [] then
          some { technique := Technique.combosquat
                 confidence := 7/10
                 pattern := some PatternKind.generic_combo
                 comboPre := some (t.take ((indexOfSub p t).getD 0))
                 comboSuf := some (t.drop ((indexOfSub p t).getD 0 + p.length)) }
        else sepLoop t p
      else sepLoop t p := rfl

def loginMicrosoftChars : Str :=
  ['l', 'o', 'g', 'i', 'n', '-', 'm', 'i', 'c', 'r', 'o', 's', 'o', 'f', 't']

/-- Claim C6: `detectCombosquat` fires whenever the test base label contains
the protected base label as a proper substring (so with a non-empty prefix or
suffix), reporting the prefix and suffix around the first occurrence, with
boosted confidence 0.9 (`common_combo`) when the prefix or suffix contains a
word of the suspicious vocabulary and confidence 0.7 (`generic_combo`) for an
arbitrary addition; it also fires on separator-joined concatenations
`protected + '-' + X` and `X + '-' + protected`; and on test label
"login-microsoft" against protected "microsoft" it fires with pattern
`common_combo`, prefix "login-" and confidence 0.9. -/
theorem c6_detectCombosquat_spec :
    (∀ t p : Str, p <:+: t → t ≠ p →
      ∃ r, detectCombosquat t p = some r ∧ r.technique = Technique.combosquat ∧
        r.comboPre = some (t.take ((indexOfSub p t).getD 0)) ∧
        r.comboSuf = some (t.drop ((indexOfSub p t).getD 0 + p.length)) ∧
        (hasCommonCombo (t.take ((indexOfSub p t).getD 0))
            (t.drop ((indexOfSub p t).getD 0 + p.length)) = true →
          r.pattern = some PatternKind.common_combo ∧ r.confidence = 9/10) ∧
        (hasCommonCombo (t.take ((indexOfSub p t).getD 0))
            (t.drop ((indexOfSub p t).getD 0 + p.length)) = false →
          r.pattern = some PatternKind.generic_combo ∧ r.confidence = 7/10)) ∧
    (∀ p x : Str, x ≠ [] →
      (detectCombosquat (p ++ '-' :: x) p).isSome ∧
      (detectCombosquat (x ++ '-' :: p) p).isSome) ∧
    detectCombosquat loginMicrosoftChars microsoftChars =
      some { technique := Technique.combosquat
             confidence := 9/10
             pattern := some PatternKind.common_combo
             comboPre := some ['l', 'o', 'g', 'i', 'n', '-']
             comboSuf := some [] } := by
  have hfire : ∀ t p : Str, p <:+: t → t ≠ p →
      ∃ r, detectCombosquat t p = some r ∧ r.technique = Technique.combosquat ∧
        r.comboPre = some (t.take ((indexOfSub p t).getD 0)) ∧
        r.comboSuf = some (t.drop ((indexOfSub p t).getD 0 + p.length)) ∧
        (hasCommonCombo (t.take ((indexOfSub p t).getD 0))
            (t.drop ((indexOfSub p t).getD 0 + p.length)) = true →
          r.pattern = some PatternKind.common_combo ∧ r.confidence = 9/10) ∧
        (hasCommonCombo (t.take ((indexOfSub p t).getD 0))
            (t.drop ((indexOfSub p t).getD 0 + p.length)) = false →
          r.pattern = some PatternKind.generic_combo ∧ r.confidence = 7/10) := by
    intro t p hinf hne
    have hinc : includesSub t p = true := (indexOfSub_isSome_iff p t).mpr hinf
    rw [detectCombosquat_eq, if_pos ⟨hinc, hne⟩]
    by_cases hcc : hasCommonCombo (t.take ((indexOfSub p t).getD 0))
        (t.drop ((indexOfSub p t).getD 0 + p.length)) = true
    · rw [if_pos hcc]
      exact ⟨_, rfl, rfl, rfl, rfl, fun _ => ⟨rfl, rfl⟩,
        fun hf => absurd hcc (by simp [hf])⟩
    · rw [if_neg hcc]
      obtain ⟨i, hi⟩ := Option.isSome_iff_exists.mp ((indexOfSub_isSome_iff p t).mpr hinf)
      have hdec := indexOfSub_decomp p t i hi
      have hor : t.take ((indexOfSub p t).getD 0) ≠ [] ∨
          t.drop ((indexOfSub p t).getD 0 + p.length) ≠ [] := by
        rw [hi]
        simp only [Option.getD_some]
        by_contra hcon
        push_neg at hcon
        obtain ⟨h1, h2⟩ := hcon
        rw [h1, h2] at hdec
        simp at hdec
        exact hne hdec.symm
      rw [if_pos hor]
      refine ⟨_, rfl, rfl, rfl, rfl, fun htr => absurd htr hcc, fun _ => ⟨rfl, rfl⟩⟩
  refine ⟨hfire, ?_, ?_⟩
  · intro p x hx
    constructor
    · have h1 : p <:+: p ++ '-' :: x := (List.prefix_append p ('-' :: x)).isInfix
      have hne : p ++ '-' :: x ≠ p := by
        intro h
        have hlen := congrArg List.length h
        simp at hlen
      obtain ⟨r, hr, _⟩ := hfire _ p h1 hne
      simp [hr]
    · have h1 : p <:+: x ++ '-' :: p :=
        ((List.suffix_cons '-' p).trans (List.suffix_append x ('-' :: p))).isInfix
      have hne : x ++ '-' :: p ≠ p := by
        intro h
        have hlen := congrArg List.length h
        simp at hlen
        omega
      obtain ⟨r, hr, _⟩ := hfire _ p h1 hne
      simp [hr]
  · rfl

/-- Witness for C6: the concrete firing pair "login-microsoft" / "microsoft",
with the suspicious-vocabulary hypothesis discharged by computation. -/
theorem c6_detectCombosquat_witness :
    ∃ r, detectCombosquat loginMicrosoftChars microsoftChars = some r ∧
      r.pattern = some PatternKind.common_combo ∧ r.confidence = 9/10 := by
  obtain ⟨r, hr, _, _, _, hcc, _⟩ :=
    c6_detectCombosquat_spec.1 loginMicrosoftChars microsoftChars
      ((indexOfSub_isSome_iff microsoftChars loginMicrosoftChars).mp (by decide))
      (by decide)
  have h := hcc (by decide)
  exact ⟨r, hr, h.1, h.2⟩

/-! ## Aggregation (`calculateSeverity`, `calculateConfidence`) -/

/-- Source `Math.max(...detections.map(d => d.confidence))`.  On an empty list JS
yields `-Infinity`; the detector only calls this with at least one detection,
and the claims are restricted to non-empty lists, so the empty case is
modelled as 0. -/
def maxConfidence (detections : List TechniqueResult) : ℚ :=
  match detections.map fun d => d.confidence with
  | [] => 0
  | c :: cs => cs.foldl max c

/-- Source `calculateSeverity(detections)`. -/
def calculateSeverity (detections : List TechniqueResult) : Severity :=
  let maxC := maxConfidence detections
  if 9/10 ≤ maxC then Severity.critical
  else if 8/10 ≤ maxC then Severity.high
  else if 6/10 ≤ maxC then Severity.medium
  else Severity.low

/-- Source `calculateConfidence(detections)`: the average confidence, plus 0.1 when
more than one technique fired, capped at 0.99 (empty input returns 0). -/
def calculateConfidence (detections : List TechniqueResult) : ℚ :=
  if detections.length = 0 then 0
  else
    let avgConfidence :=
      (detections.foldl (fun sum d => sum + d.confidence) 0) / (detections.length : ℚ)
    let multiTechniqueBonus : ℚ := if 1 < detections.length then 1/10 else 0
    min (99/100) (avgConfidence + multiTechniqueBonus)

/-- A left fold of `max` over `c :: cs` is an element of `c :: cs` and bounds
every element of `c :: cs`. -/
theorem foldl_max_spec :
    ∀ (cs : List ℚ) (c : ℚ),
      cs.foldl max c ∈ c :: cs ∧ ∀ x ∈ c :: cs, x ≤ cs.foldl max c := by
  intro cs
  induction cs with
  | nil => exact fun c => ⟨List.mem_cons_self c [], by simp⟩
  | cons d ds ih =>
    intro c
    obtain ⟨hmem, hbound⟩ := ih (max c d)
    constructor
    · simp only [List.foldl_cons]
      rcases List.mem_cons.mp hmem with h | h
      · rcases max_choice c d with hc | hc
        · rw [h, hc]
          exact List.mem_cons_self c (d :: ds)
        · rw [h, hc]
          exact List.mem_cons_of_mem c (List.mem_cons_self d ds)
      · exact List.mem_cons_of_mem c (List.mem_cons_of_mem d h)
    · intro x hx
      simp only [List.foldl_cons]
      have hhd : max c d ≤ ds.foldl max (max c d) :=
        hbound (max c d) (List.mem_cons_self _ _)
      rcases List.mem_cons.mp hx with h | h
      · rw [h]
        exact le_trans (le_max_left c d) hhd
      · rcases List.mem_cons.mp h with h2 | h2
        · rw [h2]
          exact le_trans (le_max_right c d) hhd
        · exact hbound x (List.mem_cons_of_mem _ h2)

/-- Claim C5: for every non-empty list of fired technique results,
`calculateSeverity` classifies the maximum technique confidence as critical
(≥ 0.9), high (≥ 0.8), medium (≥ 0.6) or low, and `calculateConfidence`
returns `min(0.99, average confidence + 0.1-bonus when more than one technique
fired)`. -/
theorem c5_aggregation_spec :
    ∀ l : List TechniqueResult, l ≠ [] →
      (∃ m, m ∈ l.map (fun d => d.confidence) ∧
        (∀ c ∈ l.map (fun d => d.confidence), c ≤ m) ∧
        calculateSeverity l =
          (if 9/10 ≤ m then Severity.critical
           else if 8/10 ≤ m then Severity.high
           else if 6/10 ≤ m then Severity.medium
           else Severity.low)) ∧
      calculateConfidence l =
        min (99/100) ((l.map fun d => d.confidence).sum / (l.length : ℚ) +
          (if 1 < l.length then 1/10 else 0)) := by
  intro l hl
  constructor
  · rcases hmap : l.map (fun d => d.confidence) with _ | ⟨c, cs⟩
    · rw [List.map_eq_nil_iff] at hmap
      exact absurd hmap hl
    · obtain ⟨hmem, hbound⟩ := foldl_max_spec cs c
      refine ⟨cs.foldl max c, ?_, ?_, ?_⟩
      · rw [hmap]
        exact hmem
      · rw [hmap]
        exact hbound
      · rw [calculateSeverity]
        have hmax : maxConfidence l = cs.foldl max c := by
          rw [maxConfidence, hmap]
        rw [hmax]
  · have hlen : l.length ≠ 0 := fun h => hl (List.eq_nil_of_length_eq_zero h)
    rw [calculateConfidence, if_neg hlen]
    have hsum : l.foldl (fun sum d => sum + d.confidence) 0 =
        (l.map fun d => d.confidence).sum := by
      rw [List.sum_eq_foldl, List.foldl_map]
    rw [hsum]

def sampleDetections : List TechniqueResult :=
  [ { technique := Technique.levenshtein, confidence := 1/2 },
    { technique := Technique.combosquat, confidence := 9/10 } ]

/-- Witness for C5: two concrete fired techniques with confidences 0.5 and
0.9 aggregate to severity `critical` and confidence
`min(0.99, (0.5+0.9)/2 + 0.1) = 0.8`. -/
theorem c5_aggregation_witness :
    calculateSeverity sampleDetections = Severity.critical ∧
    calculateConfidence sampleDetections = 4/5 := by
  obtain ⟨⟨m, hmem, hbound, hsev⟩, hconf⟩ :=
    c5_aggregation_spec sampleDetections (by simp [sampleDetections])
  constructor
  · simp only [sampleDetections, List.map_cons, List.map_nil] at hmem hbound
    have h910 : (9/10 : ℚ) ≤ m := hbound (9/10) (by simp)
    rw [hsev, if_pos h910]
  · rw [hconf]
    simp only [sampleDetections, List.map_cons, List.map_nil, List.length_cons,
      List.length_nil]
    norm_num

/-! ## Base-domain extraction (`extractBaseDomain`) -/

/-- Source `domain.split(sep)` for a one-character separator. -/
def splitOnChar (sep : Char) : Str → List Str
  | [] => [[]]
  | x :: xs =>
    if x = sep then [] :: splitOnChar sep xs
    else
      match splitOnChar sep xs with
      | [] => [[x]]
      | y :: ys => (x :: y) :: ys

/-- Source `domain.replace(/^https?:\/\//, '')`: remove one leading `http://` or
`https://`. -/
def stripHttpScheme (domain : Str) : Str :=
  if List.isPrefixOf ['h', 't', 't', 'p', 's', ':', '/', '/'] domain then domain.drop 8
  else if List.isPrefixOf ['h', 't', 't', 'p', ':', '/', '/'] domain then domain.drop 7
  else domain

/-- The second-level labels (`co`, `com`, `net`, `org`, `gov`, `edu`) that
`extractBaseDomain` treats as markers of a two-part TLD such as `co.uk`. -/
def twoPartTlds : List Str :=
  [ ['c', 'o'], ['c', 'o', 'm'], ['n', 'e', 't'],
    ['o', 'r', 'g'], ['g', 'o', 'v'], ['e', 'd', 'u'] ]

/-- Source `extractBaseDomain(domain)`: drop protocol, path and port, split on dots,
and return the label two positions from the end when the second-to-last label
marks a two-part TLD, otherwise the second-to-last label (or the whole string
when there is no dot). -/
def extractBaseDomain (domain : Str) : Str :=
  if domain = [] then []
  else
    let d1 := stripHttpScheme domain
    let d2 := d1.takeWhile (· ≠ '/')
    let d3 := d2.takeWhile (· ≠ ':')
    let parts := splitOnChar '.' d3
    if 2 ≤ parts.length then
      if 3 ≤ parts.length ∧ parts.getD (parts.length - 2) [] ∈ twoPartTlds then
        parts.getD (parts.length - 3) []
      else parts.getD (parts.length - 2) []
    else parts.getD 0 []

/-- Dot-join a list of labels into a hostname. -/
def joinDots : List Str → Str
  | [] => []
  | [l] => l
  | l :: ls => l ++ '.' :: joinDots ls

theorem splitOnChar_ne_nil (sep : Char) (l : Str) : splitOnChar sep l ≠ [] := by
  cases l with
  | nil => simp [splitOnChar]
  | cons x xs =>
    by_cases h : x = sep
    · simp [splitOnChar, h]
    · rcases h2 : splitOnChar sep xs with _ | ⟨y, ys⟩
      · simp [splitOnChar, h, h2]
      · simp [splitOnChar, h, h2]

theorem splitOnChar_cons_ne (sep x : Char) (l : Str) (h : x ≠ sep) :
    splitOnChar sep (x :: l) =
      (x :: (splitOnChar sep l).headD []) :: (splitOnChar sep l).tail := by
  rcases h2 : splitOnChar sep l with _ | ⟨y, ys⟩
  · exact absurd h2 (splitOnChar_ne_nil sep l)
  · simp [splitOnChar, h, h2]

theorem splitOnChar_append (sep : Char) :
    ∀ (xs ys : Str), (∀ c ∈ xs, c ≠ sep) →
      splitOnChar sep (xs ++ ys) =
        (xs ++ (splitOnChar sep ys).headD []) :: (splitOnChar sep ys).tail := by
  intro xs
  induction xs with
  | nil =>
    intro ys _
    rcases h2 : splitOnChar sep ys with _ | ⟨z, zs⟩
    · exact absurd h2 (splitOnChar_ne_nil sep ys)
    · simp [h2]
  | cons x xs ih =>
    intro ys h
    have hx : x ≠ sep := h x (List.mem_cons_self x xs)
    rw [List.cons_append, splitOnChar_cons_ne sep x _ hx,
      ih ys fun c hc => h c (List.mem_cons_of_mem x hc)]
    simp

theorem splitOnChar_joinDots :
    ∀ ls : List Str, ls ≠ [] → (∀ l ∈ ls, ∀ c ∈ l, c ≠ '.') →
      splitOnChar '.' (joinDots ls) = ls := by
  intro ls
  induction ls with
  | nil => intro h _; exact absurd rfl h
  | cons l ls ih =>
    intro _ hfree
    cases ls with
    | nil =>
      have h := splitOnChar_append '.' l [] (hfree l (List.mem_cons_self l []))
      simp only [List.append_nil] at h
      show splitOnChar '.' l = [l]
      rw [h]
      simp [splitOnChar]
    | cons l2 ls2 =>
      show splitOnChar '.' (l ++ '.' :: joinDots (l2 :: ls2)) = l :: l2 :: ls2
      rw [splitOnChar_append '.' l ('.' :: joinDots (l2 :: ls2))
        (hfree l (List.mem_cons_self l (l2 :: ls2)))]
      have hsep : splitOnChar '.' ('.' :: joinDots (l2 :: ls2)) =
          [] :: splitOnChar '.' (joinDots (l2 :: ls2)) := by
        simp [splitOnChar]
      rw [hsep]
      simp only [List.headD_cons, List.tail_cons, List.append_nil]
      rw [ih (by simp) fun l' hl' => hfree l' (List.mem_cons_of_mem l hl')]

theorem takeWhile_append_all (q : Char → Bool) :
    ∀ (xs ys : Str), (∀ c ∈ xs, q c = true) →
      (xs ++ ys).takeWhile q = xs ++ ys.takeWhile q := by
  intro xs
  induction xs with
  | nil => simp
  | cons x xs ih =>
    intro ys h
    have hx := h x (List.mem_cons_self x xs)
    rw [List.cons_append, List.takeWhile_cons, hx]
    simp only [ih ys fun c hc => h c (List.mem_cons_of_mem x hc)]
    rfl

theorem mem_joinDots :
    ∀ (ls : List Str) (c : Char), c ∈ joinDots ls → c = '.' ∨ ∃ l ∈ ls, c ∈ l := by
  intro ls
  induction ls with
  | nil =>
    intro c h
    cases h
  | cons l ls ih =>
    intro c h
    cases ls with
    | nil =>
      right
      exact ⟨l, List.mem_cons_self l [], h⟩
    | cons l2 ls2 =>
      have hj : joinDots (l :: l2 :: ls2) = l ++ '.' :: joinDots (l2 :: ls2) := rfl
      rw [hj] at h
      rcases List.mem_append.mp h with h | h
      · exact Or.inr ⟨l, List.mem_cons_self l (l2 :: ls2), h⟩
      · rcases List.mem_cons.mp h with h | h
        · exact Or.inl h
        · rcases ih c h with h | ⟨l', hl', hc⟩
          · exact Or.inl h
          · exact Or.inr ⟨l', List.mem_cons_of_mem l hl', hc⟩

/-- Unfolding equation for `extractBaseDomain`. -/
theorem extractBaseDomain_eq (domain : Str) :
    extractBaseDomain domain =
      if domain = [] then []
      else
        let parts := splitOnChar '.'
          (((stripHttpScheme domain).takeWhile (· ≠ '/')).takeWhile (· ≠ ':'))
        if 2 ≤ parts.length then
          if 3 ≤ parts.length ∧ parts.getD (parts.length - 2) [] ∈ twoPartTlds then
            parts.getD (parts.length - 3) []
          else parts.getD (parts.length - 2) []
        else parts.getD 0 [] := rfl

/-- Claim C8: for every well-formed domain string — dot-joined non-empty
labels free of `.`, `/`, `:`, optionally preceded by an `http://` or
`https://` scheme and followed by a `:`-started port and a `/`-started path —
`extractBaseDomain` drops the scheme, path and port and returns the base
label: for a multi-part public suffix such as `co.uk` (the recognized
second-level markers are exactly `twoPartTlds` = co, com, net, org, gov, edu)
it returns the label two segments before the suffix, and otherwise the
second-to-last dot-separated label. -/
theorem c8_extractBaseDomain_spec :
    ∀ (labels : List Str) (scheme port path : Str),
      2 ≤ labels.length →
      (∀ l ∈ labels, l ≠ [] ∧ ∀ c ∈ l, c ≠ '.' ∧ c ≠ '/' ∧ c ≠ ':') →
      (scheme = [] ∨ scheme = ['h', 't', 't', 'p', ':', '/', '/'] ∨
        scheme = ['h', 't', 't', 'p', 's', ':', '/', '/']) →
      (port = [] ∨ ∃ r : Str, port = ':' :: r) →
      (path = [] ∨ ∃ r : Str, path = '/' :: r) →
      extractBaseDomain (scheme ++ (joinDots labels ++ (port ++ path))) =
        (if 3 ≤ labels.length ∧ labels.getD (labels.length - 2) [] ∈ twoPartTlds then
          labels.getD (labels.length - 3) []
        else
          labels.getD (labels.length - 2) []) := by
  intro labels scheme port path hlen hlab hscheme hport hpath
  obtain ⟨l1, ls1, rfl⟩ : ∃ l1 ls1, labels = l1 :: ls1 := by
    cases labels with
    | nil => simp at hlen
    | cons a b => exact ⟨a, b, rfl⟩
  obtain ⟨l2, ls2, rfl⟩ : ∃ l2 ls2, ls1 = l2 :: ls2 := by
    cases ls1 with
    | nil => simp at hlen
    | cons a b => exact ⟨a, b, rfl⟩
  have hjd : joinDots (l1 :: l2 :: ls2) = l1 ++ '.' :: joinDots (l2 :: ls2) := rfl
  have hdot : '.' ∈ joinDots (l1 :: l2 :: ls2) := by
    rw [hjd]
    exact List.mem_append_right _ (List.mem_cons_self _ _)
  have hhostchars : ∀ c ∈ joinDots (l1 :: l2 :: ls2), c ≠ '/' ∧ c ≠ ':' := by
    intro c hc
    rcases mem_joinDots _ c hc with h | ⟨l, hl, hcl⟩
    · subst h
      exact ⟨by decide, by decide⟩
    · have h2 := (hlab l hl).2 c hcl
      exact ⟨h2.2.1, h2.2.2⟩
  have hhostne : joinDots (l1 :: l2 :: ls2) ≠ [] := fun h => by
    rw [h] at hdot
    cases hdot
  have hne : scheme ++ (joinDots (l1 :: l2 :: ls2) ++ (port ++ path)) ≠ [] := by
    intro h
    rcases List.append_eq_nil.mp h with ⟨_, h2⟩
    rcases List.append_eq_nil.mp h2 with ⟨h3, _⟩
    exact hhostne h3
  -- a scheme pattern containing ':' but no '.' is never a prefix of the
  -- scheme-free remainder
  have hnopre : ∀ pat : Str, ':' ∈ pat → '.' ∉ pat →
      ¬ List.isPrefixOf pat (joinDots (l1 :: l2 :: ls2) ++ (port ++ path)) = true := by
    intro pat hcolon hdotfree hpre
    rw [ List.isPrefixOf_iff_prefix] at hpre
    have hhp : joinDots (l1 :: l2 :: ls2) <+:
        joinDots (l1 :: l2 :: ls2) ++ (port ++ path) := List.prefix_append _ _
    rcases List.prefix_or_prefix_of_prefix hpre hhp with h | h
    · have := (hhostchars ':' (h.subset hcolon)).2
      exact this rfl
    · exact hdotfree (h.subset hdot)
  have hstrip : stripHttpScheme (scheme ++ (joinDots (l1 :: l2 :: ls2) ++ (port ++ path))) =
      joinDots (l1 :: l2 :: ls2) ++ (port ++ path) := by
    rcases hscheme with rfl | rfl | rfl
    · rw [List.nil_append, stripHttpScheme,
        if_neg (hnopre ['h', 't', 't', 'p', 's', ':', '/', '/'] (by decide) (by decide)),
        if_neg (hnopre ['h', 't', 't', 'p', ':', '/', '/'] (by decide) (by decide))]
    · rw [stripHttpScheme]
      have hnotS : ¬ List.isPrefixOf ['h', 't', 't', 'p', 's', ':', '/', '/']
          (['h', 't', 't', 'p', ':', '/', '/'] ++
            (joinDots (l1 :: l2 :: ls2) ++ (port ++ path))) = true := by
        intro hpre
        rw [ List.isPrefixOf_iff_prefix] at hpre
        have hh : ['h', 't', 't', 'p', ':', '/', '/'] <+:
            ['h', 't', 't', 'p', ':', '/', '/'] ++
              (joinDots (l1 :: l2 :: ls2) ++ (port ++ path)) := List.prefix_append _ _
        rcases List.prefix_or_prefix_of_prefix hpre hh with h | h
        · exact absurd h (by decide)
        · exact absurd h (by decide)
      rw [if_neg hnotS,
        if_pos (List.isPrefixOf_iff_prefix.mpr (List.prefix_append _ _))]
      exact List.drop_left ['h', 't', 't', 'p', ':', '/', '/'] _
    · rw [stripHttpScheme,
        if_pos (List.isPrefixOf_iff_prefix.mpr (List.prefix_append _ _))]
      exact List.drop_left ['h', 't', 't', 'p', 's', ':', '/', '/'] _
  -- path/port removal
  have hq1 : ∀ c ∈ joinDots (l1 :: l2 :: ls2), (decide (c ≠ '/')) = true := by
    intro c hc
    simpa using (hhostchars c hc).1
  have hq2 : ∀ c ∈ joinDots (l1 :: l2 :: ls2), (decide (c ≠ ':')) = true := by
    intro c hc
    simpa using (hhostchars c hc).2
  have hd3 : (((joinDots (l1 :: l2 :: ls2) ++ (port ++ path)).takeWhile
      (fun c => decide (c ≠ '/'))).takeWhile (fun c => decide (c ≠ ':'))) =
      joinDots (l1 :: l2 :: ls2) := by
    rw [takeWhile_append_all _ _ _ hq1]
    have hrest : ∃ junk : Str,
        (port ++ path).takeWhile (fun c => decide (c ≠ '/')) = [] ∨
        (port ++ path).takeWhile (fun c => decide (c ≠ '/')) = ':' :: junk := by
      rcases hport with rfl | ⟨r, rfl⟩
      · rcases hpath with rfl | ⟨r, rfl⟩
        · exact ⟨[], Or.inl rfl⟩
        · exact ⟨[], Or.inl (by simp [List.takeWhile_cons])⟩
      · refine ⟨(r ++ path).takeWhile (fun c => decide (c ≠ '/')), Or.inr ?_⟩
        simp [List.takeWhile_cons]
    obtain ⟨junk, hj | hj⟩ := hrest
    · rw [hj, List.append_nil, List.takeWhile_eq_self_iff.mpr hq2]
    · rw [hj, takeWhile_append_all _ _ _ hq2, List.takeWhile_cons]
      simp
  rw [extractBaseDomain_eq, if_neg hne]
  simp only [hstrip, hd3,
    splitOnChar_joinDots (l1 :: l2 :: ls2) (by simp) fun l hl c hc => ((hlab l hl).2 c hc).1]
  rw [if_pos (by simp)]

/-- Witness for C8: `https://www.example.co.uk:8080/x` reduces to base label
"example" (the `co.uk` suffix is handled by taking the label two segments
before it). -/
theorem c8_extractBaseDomain_witness :
    extractBaseDomain (['h', 't', 't', 'p', 's', ':', '/', '/'] ++
      (joinDots [['w', 'w', 'w'], ['e', 'x', 'a', 'm', 'p', 'l', 'e'],
        ['c', 'o'], ['u', 'k']] ++
        ((':' :: ['8', '0', '8', '0']) ++ ('/' :: ['x'])))) =
      ['e', 'x', 'a', 'm', 'p', 'l', 'e'] := by
  have h := c8_extractBaseDomain_spec
    [['w', 'w', 'w'], ['e', 'x', 'a', 'm', 'p', 'l', 'e'], ['c', 'o'], ['u', 'k']]
    ['h', 't', 't', 'p', 's', ':', '/', '/'] (':' :: ['8', '0', '8', '0']) ('/' :: ['x'])
    (by decide) (by decide) (Or.inr (Or.inr rfl))
    (Or.inr ⟨['8', '0', '8', '0'], rfl⟩) (Or.inr ⟨['x'], rfl⟩)
  exact h.trans (by decide)

/-! ## `checkDomain` -/

/-- The detections collected for one protected base: each `detect*` method is
invoked only when the corresponding algorithm flag is enabled, and its result
is pushed when it fired. -/
def runDetections (det : Detector) (testBase protectedBase : Str) : List TechniqueResult :=
  (if det.algorithms.levenshtein then
    (detectLevenshtein det.deviationThreshold testBase protectedBase).toList
  else []) ++
  (if det.algorithms.homoglyph then
    (detectHomoglyph det.deviationThreshold testBase protectedBase).toList
  else []) ++
  (if det.algorithms.typosquat then
    (detectTyposquat testBase protectedBase).toList
  else []) ++
  (if det.algorithms.combosquat then
    (detectCombosquat testBase protectedBase).toList
  else [])

/-- The verdict object `checkDomain` returns when at least one technique
fired. -/
def mkVerdict (testDomain protectedDomain : Str)
    (detections : List TechniqueResult) : Verdict :=
  { detected := true
    testDomain := testDomain
    protectedDomain := protectedDomain
    techniques := detections
    severity := calculateSeverity detections
    confidence := calculateConfidence detections }

/-- The `for (const protectedDomain of this.protectedDomains)` loop of
`checkDomain`: identical bases are skipped, and the first protected domain
with a non-empty detections list produces the returned verdict. -/
def checkDomainGo (det : Detector) (testDomain testBase : Str) : List Str → Option Verdict
  | [] => none
  | p :: ps =>
    let protectedBase := extractBaseDomain p
    if testBase = protectedBase then checkDomainGo det testDomain testBase ps
    else
      let detections := runDetections det testBase protectedBase
      if detections = [] then checkDomainGo det testDomain testBase ps
      else some (mkVerdict testDomain p detections)

/-- Source `checkDomain(testDomain)`: `null` when the detector is disabled or the
test domain is empty/absent, otherwise the loop over the protected list. -/
def checkDomain (det : Detector) (testDomain : Str) : Option Verdict :=
  if ¬det.enabled ∨ testDomain = [] then none
  else checkDomainGo det testDomain (extractBaseDomain testDomain) det.protectedDomains

/-- Count of detection-technique invocations along the loop of `checkDomain`
(each inspected protected domain contributes one call per enabled algorithm;
the loop stops at the first verdict). -/
def techniqueCallsGo (det : Detector) (testBase : Str) : List Str → Nat
  | [] => 0
  | p :: ps =>
    let protectedBase := extractBaseDomain p
    if testBase = protectedBase then techniqueCallsGo det testBase ps
    else
      let n :=
        (if det.algorithms.levenshtein then 1 else 0) +
        (if det.algorithms.homoglyph then 1 else 0) +
        (if det.algorithms.typosquat then 1 else 0) +
        (if det.algorithms.combosquat then 1 else 0)
      if runDetections det testBase protectedBase = [] then n + techniqueCallsGo det testBase ps
      else n

/-- Count of detection-technique invocations `checkDomain` performs in total:
zero when the early guard returns `null`. -/
def techniqueCalls (det : Detector) (testDomain : Str) : Nat :=
  if ¬det.enabled ∨ testDomain = [] then 0
  else techniqueCallsGo det (extractBaseDomain testDomain) det.protectedDomains

/-- Unfolding equation for the loop body. -/
theorem checkDomainGo_cons (det : Detector) (testDomain testBase p : Str) (ps : List Str) :
    checkDomainGo det testDomain testBase (p :: ps) =
      if testBase = extractBaseDomain p then checkDomainGo det testDomain testBase ps
      else if runDetections det testBase (extractBaseDomain p) = [] then
        checkDomainGo det testDomain testBase ps
      else some (mkVerdict testDomain p (runDetections det testBase (extractBaseDomain p))) :=
  rfl

/-- The loop is a first-match search. -/
theorem checkDomainGo_eq_find (det : Detector) (testDomain testBase : Str) :
    ∀ ps : List Str,
      checkDomainGo det testDomain testBase ps =
        (ps.find? fun p =>
          decide (testBase ≠ extractBaseDomain p ∧
            runDetections det testBase (extractBaseDomain p) ≠ [])).map
          fun p => mkVerdict testDomain p
            (runDetections det testBase (extractBaseDomain p)) := by
  intro ps
  induction ps with
  | nil => rfl
  | cons p ps ih =>
    by_cases h1 : testBase = extractBaseDomain p
    · rw [checkDomainGo_cons, if_pos h1, ih, List.find?_cons_of_neg]
      simp [h1]
    · by_cases h2 : runDetections det testBase (extractBaseDomain p) = []
      · rw [checkDomainGo_cons, if_neg h1, if_pos h2, ih, List.find?_cons_of_neg]
        simp [h1, h2]
      · rw [checkDomainGo_cons, if_neg h1, if_neg h2, List.find?_cons_of_pos]
        · rfl
        · simp [h1, h2]

/-- Claim C4: when the detector is enabled and the test domain non-empty,
`checkDomain` skips every protected domain whose base label equals the test
base label and returns the verdict built for the FIRST protected domain, in
list order, for which at least one enabled technique fires (a first-match
search, not a best-score search); it returns `null` exactly when no protected
domain produces a firing technique. -/
theorem c4_checkDomain_first_match :
    ∀ (det : Detector) (t : Str), det.enabled = true → t ≠ [] →
      checkDomain det t =
        (det.protectedDomains.find? fun p =>
          decide (extractBaseDomain t ≠ extractBaseDomain p ∧
            runDetections det (extractBaseDomain t) (extractBaseDomain p) ≠ [])).map
          (fun p => mkVerdict t p
            (runDetections det (extractBaseDomain t) (extractBaseDomain p))) ∧
      (checkDomain det t = none ↔
        ∀ p ∈ det.protectedDomains, extractBaseDomain t = extractBaseDomain p ∨
          runDetections det (extractBaseDomain t) (extractBaseDomain p) = []) := by
  intro det t hen hte
  have hcond : ¬(¬det.enabled ∨ t = []) := by
    push_neg
    exact ⟨by simp [hen], hte⟩
  have h1 : checkDomain det t =
      (det.protectedDomains.find? fun p =>
        decide (extractBaseDomain t ≠ extractBaseDomain p ∧
          runDetections det (extractBaseDomain t) (extractBaseDomain p) ≠ [])).map
        (fun p => mkVerdict t p
          (runDetections det (extractBaseDomain t) (extractBaseDomain p))) := by
    rw [checkDomain, if_neg hcond, checkDomainGo_eq_find]
  refine ⟨h1, ?_⟩
  rw [h1]
  constructor
  · intro h p hp
    have h2 := List.find?_eq_none.mp (Option.map_eq_none'.mp h) p hp
    simp only [decide_eq_true_eq] at h2
    by_cases h4 : extractBaseDomain t = extractBaseDomain p
    · exact Or.inl h4
    · right
      by_contra h5
      exact h2 ⟨h4, h5⟩
  · intro h
    rw [Option.map_eq_none', List.find?_eq_none]
    intro p hp
    simp only [decide_eq_true_eq]
    rintro ⟨ha, hb⟩
    rcases h p hp with hc | hc
    · exact ha hc
    · exact hb hc

def microsoftComChars : Str :=
  ['m', 'i', 'c', 'r', 'o', 's', 'o', 'f', 't', '.', 'c', 'o', 'm']

def micrsoftComChars : Str :=
  ['m', 'i', 'c', 'r', 's', 'o', 'f', 't', '.', 'c', 'o', 'm']

def sampleDetector : Detector :=
  { defaultDetector with protectedDomains := [microsoftComChars] }

/-- Witness for C4: with protected list `[microsoft.com]` and test domain
`micrsoft.com`, the first-match characterization applies and the returned
verdict names `microsoft.com`. -/
theorem c4_checkDomain_witness :
    checkDomain sampleDetector micrsoftComChars =
      (sampleDetector.protectedDomains.find? fun p =>
        decide (extractBaseDomain micrsoftComChars ≠ extractBaseDomain p ∧
          runDetections sampleDetector (extractBaseDomain micrsoftComChars)
            (extractBaseDomain p) ≠ [])).map
        (fun p => mkVerdict micrsoftComChars p
          (runDetections sampleDetector (extractBaseDomain micrsoftComChars)
            (extractBaseDomain p))) ∧
    (checkDomain sampleDetector micrsoftComChars).map (fun v => v.protectedDomain) =
      some microsoftComChars := by
  have h := c4_checkDomain_first_match sampleDetector micrsoftComChars rfl (by decide)
  refine ⟨h.1, ?_⟩
  rw [h.1]
  rfl

/-- Claim C10: whenever the detector's `enabled` flag is false or the test
domain is empty/absent, `checkDomain` returns `null` and evaluates no
detection technique at all. -/
theorem c10_checkDomain_guard :
    ∀ (det : Detector) (t : Str), det.enabled = false ∨ t = [] →
      checkDomain det t = none ∧ techniqueCalls det t = 0 := by
  intro det t h
  have hcond : ¬det.enabled ∨ t = [] := by
    rcases h with h | h
    · exact Or.inl (by simp [h])
    · exact Or.inr h
  exact ⟨by rw [checkDomain, if_pos hcond], by rw [techniqueCalls, if_pos hcond]⟩

def disabledDetector : Detector :=
  { defaultDetector with enabled := false, protectedDomains := [microsoftComChars] }

/-- Witness for C10: a disabled detector returns `null` with zero technique
evaluations even on a squatting domain, and an enabled detector does the same
on the empty test domain. -/
theorem c10_checkDomain_witness :
    checkDomain disabledDetector micrsoftComChars = none ∧
    techniqueCalls disabledDetector micrsoftComChars = 0 ∧
    checkDomain defaultDetector [] = none ∧
    techniqueCalls defaultDetector [] = 0 := by
  obtain ⟨h1, h2⟩ := c10_checkDomain_guard disabledDetector micrsoftComChars (Or.inl rfl)
  obtain ⟨h3, h4⟩ := c10_checkDomain_guard defaultDetector [] (Or.inr rfl)
  exact ⟨h1, h2, h3, h4⟩

/-! ## Allowlist mining (`extractDomainsFromAllowlist`) and initialization
(`initialize`, embedded as `initDetector`) -/

/-- JS `pattern.trim()`. -/
def jsTrim (s : Str) : Str :=
  ((s.dropWhile Char.isWhitespace).reverse.dropWhile Char.isWhitespace).reverse

/-- Source `replace(/^\^/, '')`. -/
def removeLeadingCaret (s : Str) : Str :=
  match s with
  | '^' :: rest => rest
  | _ => s

/-- Source `replace(/\$$/, '')`. -/
def removeTrailingDollar (s : Str) : Str :=
  match s.reverse with
  | '$' :: rest => rest.reverse
  | _ => s

/-- Source `replace(/\\/g, '')`. -/
def removeBackslashes (s : Str) : Str := s.filter fun c => c ≠ '\\'

/-- The character class `[\w\-\.]` (`\w` = ASCII letters, digits and `_`). -/
def isWordDashDot (c : Char) : Bool :=
  c.isAlpha || c.isDigit || c = '_' || c = '-' || c = '.'

/-- The character class `[a-zA-Z0-9]`. -/
def isAlnumAscii (c : Char) : Bool := c.isAlpha || c.isDigit

/-- The capture group `([a-zA-Z0-9][\w\-\.]*[a-zA-Z0-9])` matched greedily at
the start of `rest`: the maximal run of word/dash/dot characters starting with
an alphanumeric, backtracked to end on an alphanumeric, of length at least
two. -/
def urlCapture (rest : Str) : Option Str :=
  match rest with
  | [] => none
  | c :: cs =>
    if isAlnumAscii c then
      let run := c :: cs.takeWhile isWordDashDot
      let trimmed := (run.reverse.dropWhile fun x => !isAlnumAscii x).reverse
      if 2 ≤ trimmed.length then some trimmed else none
    else none

/-- Source `cleaned.match(/^(?:https?:\/\/)?([a-zA-Z0-9][\w\-\.]*[a-zA-Z0-9])/)`:
the optional scheme group is consumed greedily first, and the engine
backtracks to an empty scheme when the capture fails after it. -/
def urlMatch (s : Str) : Option Str :=
  if List.isPrefixOf ['h', 't', 't', 'p', 's', ':', '/', '/'] s then
    match urlCapture (s.drop 8) with
    | some d => some d
    | none => urlCapture s
  else if List.isPrefixOf ['h', 't', 't', 'p', ':', '/', '/'] s then
    match urlCapture (s.drop 7) with
    | some d => some d
    | none => urlCapture s
  else urlCapture s

/-- Source `domain.replace(/^\*\./, '')`. -/
def removeLeadingStarDot (s : Str) : Str :=
  match s with
  | '*' :: '.' :: rest => rest
  | _ => s

/-- Source `domain.replace(/\(.*?\)/g, '')`: each `(`, together with everything up to
the next `)`, is removed (a `(` with no later `)` is kept literally; the
regex's refusal to match across a newline is not modelled — no captured
domain contains a newline).  The fuel argument only bounds the recursion
(each step shortens the remaining string, so `s.length` steps always
suffice). -/
def removeParensAux : Nat → Str → Str
  | 0, s => s
  | _, [] => []
  | fuel + 1, c :: rest =>
    if c = '(' then
      match rest.dropWhile (fun x => x ≠ ')') with
      | [] => c :: removeParensAux fuel rest
      | _ :: after => removeParensAux fuel after
    else c :: removeParensAux fuel rest

def removeParens (s : Str) : Str := removeParensAux s.length s

/-- Source `domain.replace(/\.$/, '')`. -/
def removeTrailingDot (s : Str) : Str :=
  match s.reverse with
  | '.' :: rest => rest.reverse
  | _ => s

/-- The 26 uppercase-to-lowercase ASCII pairs. -/
def lowerPairs : List (Char × Char) :=
  [ ('A', 'a'), ('B', 'b'), ('C', 'c'), ('D', 'd'), ('E', 'e'), ('F', 'f'),
    ('G', 'g'), ('H', 'h'), ('I', 'i'), ('J', 'j'), ('K', 'k'), ('L', 'l'),
    ('M', 'm'), ('N', 'n'), ('O', 'o'), ('P', 'p'), ('Q', 'q'), ('R', 'r'),
    ('S', 's'), ('T', 't'), ('U', 'u'), ('V', 'v'), ('W', 'w'), ('X', 'x'),
    ('Y', 'y'), ('Z', 'z') ]

/-- JS `toLowerCase()` restricted to the ASCII alphabet the capture can
produce (word characters, dash and dot): the 26 uppercase letters map to
their lowercase forms and every other character is unchanged. -/
def jsToLower (c : Char) : Char := (lookupChar lowerPairs c).getD c

/-- Processing of one allowlist pattern: cleaning, hostname capture,
wildcard/path/query/fragment/parenthesis/special-character removal,
validation, and case normalization.  Returns the mined hostname, or `none`
when the pattern is skipped. -/
def extractPattern (p : Str) : Option Str :=
  if p = [] then none
  else
    let cleaned := removeBackslashes (removeTrailingDollar (removeLeadingCaret (jsTrim p)))
    match urlMatch cleaned with
    | none => none
    | some domain =>
      let d1 := removeLeadingStarDot domain
      let d2 := ((d1.takeWhile (· ≠ '/')).takeWhile (· ≠ '?')).takeWhile (· ≠ '#')
      let d3 := removeParens d2
      let d4 := d3.filter isWordDashDot
      let d5 := removeTrailingDot d4
      if d5 ≠ [] ∧ '.' ∈ d5 ∧ 3 < d5.length then some (d5.map jsToLower) else none

/-- First-occurrence deduplication, as `[...new Set(domains)]` produces. -/
def dedupFirstAux (seen : List Str) : List Str → List Str
  | [] => []
  | x :: xs => if x ∈ seen then dedupFirstAux seen xs else x :: dedupFirstAux (x :: seen) xs

def dedupFirst (l : List Str) : List Str := dedupFirstAux [] l

/-- Source `extractDomainsFromAllowlist(allowlist)`: mine every pattern, drop the
failures, and collapse duplicates keeping first occurrences. -/
def extractDomainsFromAllowlist (allowlist : List Str) : List Str :=
  dedupFirst (allowlist.filterMap extractPattern)

/-- The `algorithms` sub-object of the configuration: only present keys
override (JS object spread). -/
structure AlgorithmOverrides where
  levenshtein : Option Bool := none
  homoglyph : Option Bool := none
  typosquat : Option Bool := none
  combosquat : Option Bool := none
deriving Repr

/-- The `config.domain_squatting` object; absent keys are `none`. -/
structure DomainSquattingConfig where
  enabled : Option Bool := none
  protected_domains : Option (List Str) := none
  deviation_threshold : Option Nat := none
  algorithms : Option AlgorithmOverrides := none
deriving Repr

/-- The configuration passed to `initialize`. -/
structure Config where
  domain_squatting : Option DomainSquattingConfig := none
deriving Repr

/-- Source `{ ...this.algorithms, ...config.domain_squatting.algorithms }`. -/
def mergeAlgorithms (cur : Algorithms) (ov : AlgorithmOverrides) : Algorithms :=
  { levenshtein := ov.levenshtein.getD cur.levenshtein
    homoglyph := ov.homoglyph.getD cur.homoglyph
    typosquat := ov.typosquat.getD cur.typosquat
    combosquat := ov.combosquat.getD cur.combosquat }

/-- The `if (config.domain_squatting)` block of `initialize`: enabled unless
explicitly `false`, protected domains from the config (or `[]`), threshold
`deviation_threshold || 2` (JS falsy zero gives the default), algorithm flags
spread-merged. -/
def applyConfig (det : Detector) (config : Config) : Detector :=
  match config.domain_squatting with
  | none => det
  | some ds =>
    { det with
      enabled := match ds.enabled with
        | some false => false
        | _ => true
      protectedDomains := ds.protected_domains.getD []
      deviationThreshold := match ds.deviation_threshold with
        | some t => if t = 0 then 2 else t
        | none => 2
      algorithms := match ds.algorithms with
        | some ov => mergeAlgorithms det.algorithms ov
        | none => det.algorithms }

/-- Source `initialize(config, urlAllowlist)`, embedded as `initDetector`: apply the
configuration, then merge the hostnames mined from the allowlist into the
protected-domain list with duplicates collapsed. -/
def initDetector (det : Detector) (config : Config) (urlAllowlist : List Str) : Detector :=
  let det1 := applyConfig det config
  let allowlistDomains := extractDomainsFromAllowlist urlAllowlist
  if allowlistDomains ≠ [] then
    { det1 with protectedDomains := dedupFirst (det1.protectedDomains ++ allowlistDomains) }
  else det1

/-- Unfolding equation for `initDetector`. -/
theorem initDetector_eq (det : Detector) (config : Config) (urlAllowlist : List Str) :
    initDetector det config urlAllowlist =
      if extractDomainsFromAllowlist urlAllowlist ≠ [] then
        { applyConfig det config with
          protectedDomains := dedupFirst ((applyConfig det config).protectedDomains ++
            extractDomainsFromAllowlist urlAllowlist) }
      else applyConfig det config := rfl

theorem mem_dedupFirstAux :
    ∀ (l : List Str) (seen : List Str) (a : Str),
      a ∈ dedupFirstAux seen l ↔ a ∈ l ∧ a ∉ seen := by
  intro l
  induction l with
  | nil => simp [dedupFirstAux]
  | cons x xs ih =>
    intro seen a
    by_cases hx : x ∈ seen
    · rw [dedupFirstAux, if_pos hx, ih]
      constructor
      · rintro ⟨h1, h2⟩
        exact ⟨List.mem_cons_of_mem x h1, h2⟩
      · rintro ⟨h1, h2⟩
        rcases List.mem_cons.mp h1 with rfl | h1
        · exact absurd hx h2
        · exact ⟨h1, h2⟩
    · rw [dedupFirstAux, if_neg hx]
      constructor
      · intro h
        rcases List.mem_cons.mp h with rfl | h
        · exact ⟨List.mem_cons_self a xs, hx⟩
        · obtain ⟨h1, h2⟩ := (ih (x :: seen) a).mp h
          exact ⟨List.mem_cons_of_mem x h1,
            fun hs => h2 (List.mem_cons_of_mem x hs)⟩
      · rintro ⟨h1, h2⟩
        rcases List.mem_cons.mp h1 with rfl | h1
        · exact List.mem_cons_self a _
        · by_cases hax : a = x
          · subst hax
            exact List.mem_cons_self a _
          · exact List.mem_cons_of_mem x ((ih (x :: seen) a).mpr
              ⟨h1, fun hs => (List.mem_cons.mp hs).elim hax h2⟩)

theorem nodup_dedupFirstAux :
    ∀ (l : List Str) (seen : List Str), (dedupFirstAux seen l).Nodup := by
  intro l
  induction l with
  | nil => intro seen; simp [dedupFirstAux]
  | cons x xs ih =>
    intro seen
    by_cases hx : x ∈ seen
    · rw [dedupFirstAux, if_pos hx]
      exact ih seen
    · rw [dedupFirstAux, if_neg hx]
      refine List.nodup_cons.mpr ⟨?_, ih (x :: seen)⟩
      intro hmem
      exact ((mem_dedupFirstAux xs (x :: seen) x).mp hmem).2 (List.mem_cons_self x seen)

def upperAsciiList : List Char :=
  ['A', 'B', 'C', 'D', 'E', 'F', 'G', 'H', 'I', 'J', 'K', 'L', 'M',
   'N', 'O', 'P', 'Q', 'R', 'S', 'T', 'U', 'V', 'W', 'X', 'Y', 'Z']

theorem lookupChar_mem :
    ∀ (l : List (Char × Char)) (c d : Char), lookupChar l c = some d → (c, d) ∈ l := by
  intro l
  induction l with
  | nil => intro c d h; cases h
  | cons p ps ih =>
    intro c d h
    rw [lookupChar] at h
    split at h
    case isTrue hp =>
      cases h
      cases p
      simp only at hp
      subst hp
      exact List.mem_cons_self _ _
    case isFalse hp =>
      exact List.mem_cons_of_mem _ (ih c d h)

theorem lookupChar_eq_none_keys :
    ∀ (l : List (Char × Char)) (c : Char), lookupChar l c = none → ∀ p ∈ l, p.1 ≠ c := by
  intro l
  induction l with
  | nil => intro c _ p hp; cases hp
  | cons q qs ih =>
    intro c h p hp
    rw [lookupChar] at h
    split at h
    case isTrue => cases h
    case isFalse hq =>
      rcases List.mem_cons.mp hp with rfl | hp2
      · exact hq
      · exact ih c h p hp2

theorem jsToLower_not_upper (c : Char) : jsToLower c ∉ upperAsciiList := by
  rw [jsToLower]
  rcases hl : lookupChar lowerPairs c with _ | d
  · simp only [Option.getD_none]
    intro hmem
    have hkeys := lookupChar_eq_none_keys lowerPairs c hl
    have hex : ∀ u ∈ upperAsciiList, ∃ p ∈ lowerPairs, p.1 = u := by decide
    obtain ⟨p, hp, hpc⟩ := hex c hmem
    exact hkeys p hp hpc
  · simp only [Option.getD_some]
    have hmem := lookupChar_mem lowerPairs c d hl
    have hall : ∀ p ∈ lowerPairs, p.2 ∉ upperAsciiList := by decide
    exact hall (c, d) hmem

/-- Claim C9: for every configuration and user-supplied URL allow-list,
`initialize` extends the protected-domain list with the hostnames mined from
the allow-list patterns, collapsing duplicates and normalizing case: every
hostname successfully mined from an allowlist pattern is a member of the
resulting protected list, that list is duplicate-free (so the hostname occurs
exactly once), and the hostname contains no uppercase ASCII letter. -/
theorem c9_initDetector_allowlist_merge :
    ∀ (det : Detector) (config : Config) (al : List Str) (p h : Str),
      p ∈ al → extractPattern p = some h →
      h ∈ (initDetector det config al).protectedDomains ∧
      (initDetector det config al).protectedDomains.Nodup ∧
      ∀ c ∈ h, c ∉ upperAsciiList := by
  intro det config al p h hp hex
  have hmem : h ∈ al.filterMap extractPattern := List.mem_filterMap.mpr ⟨p, hp, hex⟩
  have hmem2 : h ∈ extractDomainsFromAllowlist al := by
    rw [extractDomainsFromAllowlist, dedupFirst]
    exact (mem_dedupFirstAux _ _ h).mpr ⟨hmem, by simp⟩
  have hne : extractDomainsFromAllowlist al ≠ [] := by
    intro hnil
    rw [hnil] at hmem2
    cases hmem2
  refine ⟨?_, ?_, ?_⟩
  · rw [initDetector_eq, if_pos hne]
    show h ∈ dedupFirst ((applyConfig det config).protectedDomains ++
      extractDomainsFromAllowlist al)
    exact (mem_dedupFirstAux _ _ h).mpr
      ⟨List.mem_append_right _ hmem2, List.not_mem_nil h⟩
  · rw [initDetector_eq, if_pos hne]
    show (dedupFirst ((applyConfig det config).protectedDomains ++
      extractDomainsFromAllowlist al)).Nodup
    exact nodup_dedupFirstAux _ _
  · intro c hc
    simp only [extractPattern] at hex
    split at hex
    · cases hex
    · split at hex
      · cases hex
      · split at hex
        · have hinj := Option.some.inj hex
          rw [← hinj] at hc
          obtain ⟨x, _, rfl⟩ := List.mem_map.mp hc
          exact jsToLower_not_upper x
        · cases hex

def allowPatternChars : Str :=
  ['h', 't', 't', 'p', 's', ':', '/', '/', 'w', 'w', 'w', '.', 'E', 'x', 'a',
   'm', 'p', 'l', 'e', '.', 'c', 'o', 'm', '/', 'l', 'o', 'g', 'i', 'n']

def wwwExampleComChars : Str :=
  ['w', 'w', 'w', '.', 'e', 'x', 'a', 'm', 'p', 'l', 'e', '.', 'c', 'o', 'm']

def emptyConfig : Config := { domain_squatting := none }

/-- Witness for C9: the allow-list pattern `https://www.Example.com/login`
mines the hostname `www.example.com`, which occurs exactly once in the
resulting protected list and is fully lowercased. -/
theorem c9_initDetector_witness :
    wwwExampleComChars ∈
      (initDetector defaultDetector emptyConfig [allowPatternChars]).protectedDomains ∧
    (initDetector defaultDetector emptyConfig [allowPatternChars]).protectedDomains.Nodup ∧
    ∀ c ∈ wwwExampleComChars, c ∉ upperAsciiList :=
  c9_initDetector_allowlist_merge defaultDetector emptyConfig [allowPatternChars]
    allowPatternChars wwwExampleComChars (List.mem_cons_self _ _) (by decide)

/-! ## Scan Scheduler state machine (claim C1)

The Scan Scheduler lives in `scripts/content.js`, which is not among the
sources under verification (only its review documents are present), so the
state machine below is modelled from the specification: the eligibility gate
of §4.5, evaluated in order, with `BLOCKED` rejected first; an accepted scan
invokes the Rule Evaluator and applies the verdict; entering `BLOCKED`
disarms mutation observation immediately and permanently; mutation events and
timer firings re-enter through the same gate. -/

/-- Modelled from the spec: the session's escalation state
(none/warned/blocked) of `ScanSession` in §3; `content.js` is missing from
the sources. -/
inductive EscalationState
  | none
  | warned
  | blocked
deriving DecidableEq, Repr

/-- Modelled from the spec: the scheduling constants of §4.5 (cooldown
1200 ms, threat-triggered cooldown 500 ms, scan cap 5, debounce 1000 ms);
`content.js` is missing from the sources. -/
structure SchedulerConfig where
  cooldownMs : Nat := 1200
  threatCooldownMs : Nat := 500
  maxScans : Nat := 5
  debounceMs : Nat := 1000
deriving Repr

def defaultSchedulerConfig : SchedulerConfig := {}

/-- Modelled from the spec: the outcome the Outcome Aggregator would produce
if the scan ran; `content.js` is missing from the sources. -/
inductive ScanOutcome
  | allow
  | warn
  | block
deriving DecidableEq, Repr

/-- Modelled from the spec: one qualifying trigger (mutation debounce, timer
firing, page load or explicit re-evaluation request) reaching the eligibility
gate; `content.js` is missing from the sources. -/
structure TriggerEvent where
  timeMs : Nat
  contentHash : Nat
  threatTriggered : Bool
  explicitReeval : Bool
  outcome : ScanOutcome
deriving Repr

/-- Modelled from the spec: the `ScanSession` state of §3 owned by the
Scheduler, extended with an observer flag and a count of Rule Evaluator
invocations so that "no further evaluation occurs" is statable;
`content.js` is missing from the sources. -/
structure ScanSession where
  escalationState : EscalationState
  scanCount : Nat
  lastScanTimeMs : Nat
  lastContentHash : Nat
  observerArmed : Bool
  evaluatorCalls : Nat
deriving Repr

/-- Modelled from the spec: the eligibility gate of §4.5 in order — blocked
state, the warned/no-explicit-re-evaluation guard, the cooldown (500 ms for
threat-triggered triggers, else 1200 ms), the scan cap, and the
content-fingerprint check; the in-flight guard (#2) is vacuous in this
sequential event model; `content.js` is missing from the sources. -/
def eligible (cfg : SchedulerConfig) (s : ScanSession) (e : TriggerEvent) : Bool :=
  !decide (s.escalationState = EscalationState.blocked) &&
  !(decide (s.escalationState = EscalationState.warned) && !e.explicitReeval) &&
  decide ((if e.threatTriggered then cfg.threatCooldownMs else cfg.cooldownMs) ≤
    e.timeMs - s.lastScanTimeMs) &&
  decide (s.scanCount < cfg.maxScans) &&
  (decide (e.contentHash ≠ s.lastContentHash) || e.threatTriggered)

/-- Modelled from the spec: an accepted scan — one Rule Evaluator invocation,
bookkeeping, and the transition for the aggregated outcome; entering blocked
disarms the observer; `content.js` is missing from the sources. -/
def applyOutcome (s : ScanSession) (e : TriggerEvent) : ScanSession :=
  let s1 := { s with
    scanCount := s.scanCount + 1
    lastScanTimeMs := e.timeMs
    lastContentHash := e.contentHash
    evaluatorCalls := s.evaluatorCalls + 1 }
  match e.outcome with
  | ScanOutcome.allow => { s1 with observerArmed := true }
  | ScanOutcome.warn =>
    { s1 with escalationState := EscalationState.warned, observerArmed := true }
  | ScanOutcome.block =>
    { s1 with escalationState := EscalationState.blocked, observerArmed := false }

/-- Modelled from the spec: one trigger processed by the Scheduler — a
blocked session ignores the trigger entirely (and keeps mutation observation
disarmed, as the observer callback itself stops observing once blocked);
otherwise the gate decides whether a scan runs; `content.js` is missing from
the sources. -/
def step (cfg : SchedulerConfig) (s : ScanSession) (e : TriggerEvent) : ScanSession :=
  if s.escalationState = EscalationState.blocked then { s with observerArmed := false }
  else if eligible cfg s e then applyOutcome s e
  else s

/-- Claim C1: once the session's escalation state is blocked, it stays
blocked under every sequence of mutation events and timer firings, the Rule
Evaluator is never invoked again (the invocation count and scan count are
unchanged), mutation observation is disarmed from the first subsequent
trigger on, and the eligibility gate rejects every trigger. -/
theorem c1_blocked_absorbing :
    ∀ (cfg : SchedulerConfig) (s : ScanSession) (events : List TriggerEvent),
      s.escalationState = EscalationState.blocked →
      ((events.foldl (step cfg) s).escalationState = EscalationState.blocked ∧
        (events.foldl (step cfg) s).evaluatorCalls = s.evaluatorCalls ∧
        (events.foldl (step cfg) s).scanCount = s.scanCount ∧
        (events ≠ [] → (events.foldl (step cfg) s).observerArmed = false)) ∧
      ∀ e, eligible cfg s e = false := by
  intro cfg s events
  induction events generalizing s with
  | nil =>
    intro hb
    exact ⟨⟨hb, rfl, rfl, fun h => absurd rfl h⟩, fun e => by simp [eligible, hb]⟩
  | cons e es ih =>
    intro hb
    have hstep : step cfg s e = { s with observerArmed := false } := by
      rw [step, if_pos hb]
    have hb' : ({ s with observerArmed := false } : ScanSession).escalationState =
        EscalationState.blocked := hb
    obtain ⟨⟨h1, h2, h3, _⟩, _⟩ := ih { s with observerArmed := false } hb'
    refine ⟨⟨?_, ?_, ?_, fun _ => ?_⟩, fun e2 => by simp [eligible, hb]⟩
    · rw [List.foldl_cons, hstep]
      exact h1
    · rw [List.foldl_cons, hstep]
      exact h2
    · rw [List.foldl_cons, hstep]
      exact h3
    · rw [List.foldl_cons, hstep]
      cases es with
      | nil => rfl
      | cons e2 es2 =>
        obtain ⟨⟨_, _, _, h4'⟩, _⟩ := ih { s with observerArmed := false } hb'
        exact h4' (by simp)

def blockedSession : ScanSession :=
  { escalationState := EscalationState.blocked
    scanCount := 3
    lastScanTimeMs := 5000
    lastContentHash := 42
    observerArmed := true
    evaluatorCalls := 7 }

def sampleEvents : List TriggerEvent :=
  [ { timeMs := 99999, contentHash := 7, threatTriggered := false,
      explicitReeval := false, outcome := ScanOutcome.block },
    { timeMs := 199999, contentHash := 8, threatTriggered := true,
      explicitReeval := true, outcome := ScanOutcome.warn } ]

/-- Witness for C1: a concrete blocked session fed a mutation event and a
threat-triggered timer firing stays blocked, runs no evaluation, and is
disarmed. -/
theorem c1_blocked_absorbing_witness :
    ((sampleEvents.foldl (step defaultSchedulerConfig) blockedSession).escalationState =
      EscalationState.blocked ∧
      (sampleEvents.foldl (step defaultSchedulerConfig) blockedSession).evaluatorCalls =
        blockedSession.evaluatorCalls ∧
      (sampleEvents.foldl (step defaultSchedulerConfig) blockedSession).scanCount =
        blockedSession.scanCount ∧
      (sampleEvents ≠ [] →
        (sampleEvents.foldl (step defaultSchedulerConfig) blockedSession).observerArmed =
          false)) ∧
    ∀ e, eligible defaultSchedulerConfig blockedSession e = false :=
  c1_blocked_absorbing defaultSchedulerConfig blockedSession sampleEvents rfl
